import Mathlib

/-!
# Verification of the fe-testgen-mcp orchestration core

Shallow embedding, translated from the TypeScript sources, of:

* the incremental-state tracker (`StateManager.initState` and the
  `isIncremental` decision in `GenerateTestsTool.generate` /
  `ReviewDiffTool.review`);
* the diff fingerprint (`FetchDiffTool.computeDiffFingerprint`,
  `computeContentHash` = SHA-256);
* the cross-dimension issue deduplicator
  (`ReviewAgent.deduplicateIssuesAcrossDimensions` and helpers);
* the comment-publishing anchoring logic
  (`PublishPhabricatorCommentsTool.executeImpl`,
  `isCodeSnippetInDeletedLines`, `findOldLineNumber`);
* the worker pool (`WorkerPool`), modelled as a state machine whose
  events are the JavaScript callbacks (message / error / exit /
  timeout / cleanup), processed one at a time as the Node event loop
  does.

JavaScript numbers that hold counts or line numbers are modelled as
`Nat`; float-valued confidences and similarity scores are modelled as
`ℚ` (all scores appearing in the code are finite decimal fractions).
JavaScript truthiness of optional numbers / strings is modelled
explicitly (`0` and `""` are falsy).
-/

namespace FeTestGen

/-! ## Incremental state tracker (state/manager.ts, tools/generate-tests.ts) -/

/-- One stored test record inside `RevisionState` (state/manager.ts). -/
structure StoredTest where
  id : String
  file : String
  testName : String
  createdAt : String
deriving DecidableEq, Repr

/-- The persisted per-revision state (state/manager.ts `RevisionState`);
the optional fields not consulted by the incremental decision are
omitted. -/
structure RevisionState where
  revisionId : String
  diffId : String
  diffFingerprint : String
  tests : List StoredTest
deriving DecidableEq, Repr

/-- `StateManager.initState`: reads the stored state (`stored` is the
result of `getState`, `none` on a missing or corrupt entry); if absent,
creates a fresh record carrying the *new* fingerprint; if present,
overwrites `diffId` and `diffFingerprint` with the new values and
returns the updated record. -/
def initState (stored : Option RevisionState)
    (revisionId diffId diffFingerprint : String) : RevisionState :=
  match stored with
  | none =>
      { revisionId := revisionId, diffId := diffId
        diffFingerprint := diffFingerprint, tests := [] }
  | some st =>
      { st with diffId := diffId, diffFingerprint := diffFingerprint }

/-- The mode decision in `GenerateTestsTool.generate` and
`ReviewDiffTool.review`:
`mode === 'incremental' && state.diffFingerprint === diffFingerprint`. -/
def isIncrementalDecision (mode : String) (state : RevisionState)
    (diffFingerprint : String) : Bool :=
  mode == "incremental" && state.diffFingerprint == diffFingerprint

/-- The composite behaviour of one orchestration run: `initState` is
called with the newly computed fingerprint, and the decision is taken
on the state it returns. -/
def runIsIncremental (stored : Option RevisionState)
    (mode revisionId diffId newFingerprint : String) : Bool :=
  isIncrementalDecision mode
    (initState stored revisionId diffId newFingerprint) newFingerprint

/-! ## SHA-256 (node:crypto `createHash('sha256')`), byte-level model

`computeContentHash` in utils/fingerprint.ts hashes the UTF-8 bytes of
its input with SHA-256 and returns the lowercase hex digest.  The hash
is embedded in full so that fingerprints of concrete diffs can be
evaluated. -/

/-- 2^32, the modulus of all SHA-256 word arithmetic. -/
def pow32 : Nat := 4294967296

/-- Right-rotation of a 32-bit word. -/
def rotr (n x : Nat) : Nat := ((x >>> n) ||| (x <<< (32 - n))) % pow32

/-- SHA-256 Ch function. -/
def shaCh (x y z : Nat) : Nat := (x &&& y) ^^^ ((x ^^^ 4294967295) &&& z)

/-- SHA-256 Maj function. -/
def shaMaj (x y z : Nat) : Nat := (x &&& y) ^^^ (x &&& z) ^^^ (y &&& z)

/-- SHA-256 Σ0. -/
def bigSigma0 (x : Nat) : Nat := rotr 2 x ^^^ rotr 13 x ^^^ rotr 22 x

/-- SHA-256 Σ1. -/
def bigSigma1 (x : Nat) : Nat := rotr 6 x ^^^ rotr 11 x ^^^ rotr 25 x

/-- SHA-256 σ0. -/
def smallSigma0 (x : Nat) : Nat := rotr 7 x ^^^ rotr 18 x ^^^ (x >>> 3)

/-- SHA-256 σ1. -/
def smallSigma1 (x : Nat) : Nat := rotr 17 x ^^^ rotr 19 x ^^^ (x >>> 10)

/-- The 64 SHA-256 round constants. -/
def sha256K : List Nat :=
  [1116352408, 1899447441, 3049323471, 3921009573, 961987163,
    1508970993, 2453635748, 2870763221, 3624381080, 310598401,
    607225278, 1426881987, 1925078388, 2162078206, 2614888103,
    3248222580, 3835390401, 4022224774, 264347078, 604807628,
    770255983, 1249150122, 1555081692, 1996064986, 2554220882,
    2821834349, 2952996808, 3210313671, 3336571891, 3584528711,
    113926993, 338241895, 666307205, 773529912, 1294757372,
    1396182291, 1695183700, 1986661051, 2177026350, 2456956037,
    2730485921, 2820302411, 3259730800, 3345764771, 3516065817,
    3600352804, 4094571909, 275423344, 430227734, 506948616,
    659060556, 883997877, 958139571, 1322822218, 1537002063,
    1747873779, 1955562222, 2024104815, 2227730452, 2361852424,
    2428436474, 2756734187, 3204031479, 3329325298]

/-- The SHA-256 initial hash value. -/
def sha256H0 : List Nat :=
  [1779033703, 3144134277, 1013904242, 2773480762,
   1359893119, 2600822924, 528734635, 1541459225]

/-- A 64-bit big-endian byte encoding. -/
def u64be (n : Nat) : List Nat :=
  [(n >>> 56) % 256, (n >>> 48) % 256, (n >>> 40) % 256, (n >>> 32) % 256,
   (n >>> 24) % 256, (n >>> 16) % 256, (n >>> 8) % 256, n % 256]

/-- SHA-256 padding: append `0x80`, zero bytes up to 56 mod 64, then the
bit length as a 64-bit big-endian integer. -/
def padMessage (msg : List Nat) : List Nat :=
  msg ++ [128] ++ List.replicate ((119 - msg.length % 64) % 64) 0
      ++ u64be (8 * msg.length)

/-- Split a byte list into 64-byte blocks (fuel-structured so the kernel
can evaluate it; the fuel `bs.length` always suffices since every step
consumes at least one byte). -/
def toBlocksAux : Nat → List Nat → List (List Nat)
  | 0, _ => []
  | _, [] => []
  | fuel + 1, bs => bs.take 64 :: toBlocksAux fuel (bs.drop 64)

/-- Split a byte list into 64-byte blocks. -/
def toBlocks (bs : List Nat) : List (List Nat) := toBlocksAux bs.length bs

/-- Assemble big-endian 32-bit words from bytes. -/
def blockWords : List Nat → List Nat
  | a :: b :: c :: d :: rest =>
      ((a <<< 24) ||| (b <<< 16) ||| (c <<< 8) ||| d) :: blockWords rest
  | _ => []

/-- Extend the 16-word message schedule by `n` more words. -/
def extendW : Nat → List Nat → List Nat
  | 0, w => w
  | n + 1, w =>
      let m := w.length
      extendW n (w ++ [(smallSigma1 (w.getD (m - 2) 0) + w.getD (m - 7) 0 +
                        smallSigma0 (w.getD (m - 15) 0) + w.getD (m - 16) 0) % pow32])

/-- The eight working variables of the SHA-256 compression loop. -/
structure HashState where
  a : Nat
  b : Nat
  c : Nat
  d : Nat
  e : Nat
  f : Nat
  g : Nat
  h : Nat
deriving Repr

/-- One SHA-256 compression round on (round constant, schedule word). -/
def shaRound (st : HashState) (kw : Nat × Nat) : HashState :=
  let t1 := (st.h + bigSigma1 st.e + shaCh st.e st.f st.g + kw.1 + kw.2) % pow32
  let t2 := (bigSigma0 st.a + shaMaj st.a st.b st.c) % pow32
  { a := (t1 + t2) % pow32, b := st.a, c := st.b, d := st.c,
    e := (st.d + t1) % pow32, f := st.e, g := st.f, h := st.g }

/-- Process one 64-byte block, updating the eight-word hash value. -/
def processBlock (hs : List Nat) (block : List Nat) : List Nat :=
  let w := extendW 48 (blockWords block)
  let st0 : HashState :=
    ⟨hs.getD 0 0, hs.getD 1 0, hs.getD 2 0, hs.getD 3 0,
     hs.getD 4 0, hs.getD 5 0, hs.getD 6 0, hs.getD 7 0⟩
  let st := (sha256K.zip w).foldl shaRound st0
  [(hs.getD 0 0 + st.a) % pow32, (hs.getD 1 0 + st.b) % pow32,
   (hs.getD 2 0 + st.c) % pow32, (hs.getD 3 0 + st.d) % pow32,
   (hs.getD 4 0 + st.e) % pow32, (hs.getD 5 0 + st.f) % pow32,
   (hs.getD 6 0 + st.g) % pow32, (hs.getD 7 0 + st.h) % pow32]

/-- The SHA-256 digest (as bytes) of a byte message. -/
def sha256Bytes (msg : List Nat) : List Nat :=
  let hFinal := (toBlocks (padMessage msg)).foldl processBlock sha256H0
  (hFinal.map fun x =>
    [(x >>> 24) % 256, (x >>> 16) % 256, (x >>> 8) % 256, x % 256]).flatten

/-- A lowercase hexadecimal digit. -/
def hexDigit (n : Nat) : Char :=
  if n < 10 then Char.ofNat (48 + n) else Char.ofNat (87 + n)

/-- Lowercase hex rendering of a byte list. -/
def bytesToHex (bs : List Nat) : String :=
  String.mk (bs.map fun b => [hexDigit (b / 16), hexDigit (b % 16)]).flatten

/-- UTF-8 encoding of one scalar value. -/
def utf8EncodeChar (c : Char) : List Nat :=
  let n := c.toNat
  if n < 128 then [n]
  else if n < 2048 then [192 + n / 64, 128 + n % 64]
  else if n < 65536 then [224 + n / 4096, 128 + (n / 64) % 64, 128 + n % 64]
  else [240 + n / 262144, 128 + (n / 4096) % 64, 128 + (n / 64) % 64, 128 + n % 64]

/-- UTF-8 bytes of a string. -/
def utf8Bytes (s : String) : List Nat := (s.data.map utf8EncodeChar).flatten

/-- utils/fingerprint.ts `computeContentHash`: full SHA-256 hex digest of
the content. -/
def computeContentHash (content : String) : String :=
  bytesToHex (sha256Bytes (utf8Bytes content))

/-! ## Diff model and fingerprint (schemas/diff.ts, tools/fetch-diff.ts) -/

/-- One hunk of a parsed diff file (schemas/diff.ts `DiffFile.hunks`). -/
structure DiffHunk where
  oldStart : Nat
  oldLines : Nat
  newStart : Nat
  newLines : Nat
  lines : List String
deriving DecidableEq, Repr

/-- One changed file of a parsed diff (schemas/diff.ts `DiffFile`). -/
structure DiffFile where
  path : String
  changeType : String
  additions : Nat
  deletions : Nat
  hunks : List DiffHunk
deriving DecidableEq, Repr

/-- A parsed diff (schemas/diff.ts `Diff`); only the file list is
consulted by the fingerprint. -/
structure Diff where
  files : List DiffFile
deriving DecidableEq, Repr

/-- `FetchDiffTool.computeDiffFingerprint`'s content string:
`diff.files.map(f => `${f.path}:${f.additions}:${f.deletions}`).flatten('|')`
— the files are taken in list order, with no sorting. -/
def fingerprintContent (d : Diff) : String :=
  String.intercalate "|"
    (d.files.map fun f =>
      f.path ++ ":" ++ toString f.additions ++ ":" ++ toString f.deletions)

/-- `FetchDiffTool.computeDiffFingerprint`. -/
def computeDiffFingerprint (d : Diff) : String :=
  computeContentHash (fingerprintContent d)

/-- A two-file diff, and the same diff with its file list reversed. -/
def permDiffLeft : Diff :=
  ⟨[⟨"a.ts", "modified", 1, 0, []⟩, ⟨"b.ts", "modified", 0, 1, []⟩]⟩

/-- The file list of `permDiffLeft`, permuted. -/
def permDiffRight : Diff :=
  ⟨[⟨"b.ts", "modified", 0, 1, []⟩, ⟨"a.ts", "modified", 1, 0, []⟩]⟩

/-! ## Review issues and the cross-dimension deduplicator
(schemas/issue.ts, agents/cr/review-agent.ts)

Confidences and similarity scores are JavaScript numbers; every
constant in the code is a small decimal fraction, modelled exactly in
`ℚ`.  JavaScript truthiness of the optional `line` / `codeSnippet`
fields (`0` and `""` are falsy) is modelled explicitly. -/

/-- A review issue. -/
structure Issue where
  file : String
  line : Option Nat
  codeSnippet : Option String
  severity : String
  topic : String
  message : String
  suggestion : String
  confidence : ℚ
deriving DecidableEq, Repr

/-- JavaScript truthiness of an optional string (`undefined` and `""`
are falsy). -/
def strTruthy : Option String → Bool
  | none => false
  | some s => !(s == "")

/-- JavaScript truthiness of an optional number (`undefined` and `0`
are falsy). -/
def natTruthy : Option Nat → Bool
  | none => false
  | some n => !(n == 0)

/-- JavaScript `\s` (the whitespace class used by `split(/\s+/)`,
`trim()` and the metadata-stripping regexes). -/
def isJsSpace (c : Char) : Bool :=
  c.toNat == 9 || c.toNat == 10 || c.toNat == 11 || c.toNat == 12 ||
  c.toNat == 13 || c.toNat == 32 || c.toNat == 160 || c.toNat == 0x1680 ||
  (0x2000 ≤ c.toNat && c.toNat ≤ 0x200A) || c.toNat == 0x2028 ||
  c.toNat == 0x2029 || c.toNat == 0x202F || c.toNat == 0x205F ||
  c.toNat == 0x3000 || c.toNat == 0xFEFF

/-- JavaScript `String.prototype.trim`. -/
def jsTrim (s : String) : String :=
  String.mk (((s.data.dropWhile isJsSpace).reverse.dropWhile isJsSpace).reverse)

/-- Drop a leading run of whitespace (the `\s*` part of the stripping
regexes). -/
def dropJsSpaces : List Char → List Char
  | [] => []
  | c :: rest => if isJsSpace c then dropJsSpaces rest else c :: rest

/-- Case-insensitive match of the word `w` (given in lowercase) at the
head of `cs`; returns the remainder on success. -/
def matchWordCI : List Char → List Char → Option (List Char)
  | [], rest => some rest
  | _, [] => none
  | x :: xs, c :: rest => if c.toLower = x then matchWordCI xs rest else none

/-- The characters removed by `extractIssueCore`'s emoji class
`/[🚨⚠️ℹ️💡]/g` (scalar values of the class members, including the
variation selector U+FE0F). -/
def emojiClassChars : List Char :=
  [Char.ofNat 0x1F6A8, Char.ofNat 0x26A0, Char.ofNat 0xFE0F,
   Char.ofNat 0x2139, Char.ofNat 0x1F4A1]

/-- Remove every occurrence of `**` (the `/\*\*/g` replace). -/
def removeBoldMarks : List Char → List Char
  | [] => []
  | '*' :: '*' :: rest => removeBoldMarks rest
  | c :: rest => c :: removeBoldMarks rest

/-- Try to match `(?:CRITICAL|HIGH|MEDIUM|LOW):\s*` (case-insensitive)
at the head of `cs`; returns the remainder on success. -/
def matchSeverityAt (cs : List Char) : Option (List Char) :=
  (["critical".data, "high".data, "medium".data, "low".data].filterMap
    (fun w =>
      match matchWordCI w cs with
      | some (':' :: rest) => some (dropJsSpaces rest)
      | _ => none)).head?

/-- Global removal of `(?:CRITICAL|HIGH|MEDIUM|LOW):\s*`; the fuel is
the input length, which suffices because every step consumes at least
one character. -/
def removeSeverityMarksAux : Nat → List Char → List Char
  | 0, cs => cs
  | _, [] => []
  | fuel + 1, c :: rest =>
      match matchSeverityAt (c :: rest) with
      | some rem => removeSeverityMarksAux fuel rem
      | none => c :: removeSeverityMarksAux fuel rest

/-- Global removal of the severity prefixes. -/
def removeSeverityMarks (cs : List Char) : List Char :=
  removeSeverityMarksAux cs.length cs

/-- Leading decimal digits of `cs` (count, remainder). -/
def spanDigits (cs : List Char) : Nat × List Char :=
  ((cs.takeWhile Char.isDigit).length, cs.dropWhile Char.isDigit)

/-- The full-width colon accepted by the `[:：]` classes. -/
def fullColon : Char := Char.ofNat 0xFF1A

/-- Try to match `置信度[:：]\s*\d+%` at the head of `cs`. -/
def matchConfidenceAt (cs : List Char) : Option (List Char) :=
  match matchWordCI "置信度".data cs with
  | some (c :: r2) =>
      if c = ':' ∨ c = fullColon then
        let r3 := dropJsSpaces r2
        let (n, r4) := spanDigits r3
        if 0 < n then
          match r4 with
          | '%' :: r5 => some r5
          | _ => none
        else none
      else none
  | _ => none

/-- Try to match `维度[:：]\s*\S+` at the head of `cs`. -/
def matchDimensionAt (cs : List Char) : Option (List Char) :=
  match matchWordCI "维度".data cs with
  | some (c :: r2) =>
      if c = ':' ∨ c = fullColon then
        let r3 := dropJsSpaces r2
        let tok := r3.takeWhile (fun c => !(isJsSpace c))
        if 0 < tok.length then some (r3.dropWhile (fun c => !(isJsSpace c)))
        else none
      else none
  | _ => none

/-- Global removal driven by a positional matcher (fuel as above). -/
def removeMatchesAux (att : List Char → Option (List Char)) :
    Nat → List Char → List Char
  | 0, cs => cs
  | _, [] => []
  | fuel + 1, c :: rest =>
      match att (c :: rest) with
      | some rem => removeMatchesAux att fuel rem
      | none => c :: removeMatchesAux att fuel rest

/-- Global removal of every match of a positional matcher. -/
def removeMatches (att : List Char → Option (List Char)) (cs : List Char) :
    List Char :=
  removeMatchesAux att cs.length cs

/-- Remove `^(?:建议|suggestion)[:：]\s*` — anchored, so at most the
start of the text is affected. -/
def removeSuggestionMark (cs : List Char) : List Char :=
  match (["建议".data, "suggestion".data].filterMap (fun w =>
      match matchWordCI w cs with
      | some (c :: rest) =>
          if c = ':' ∨ c = fullColon then some (dropJsSpaces rest) else none
      | _ => none)).head? with
  | some rem => rem
  | none => cs

/-- `ReviewAgent.extractIssueCore`: strip emoji, markdown emphasis,
backticks, severity prefixes, confidence/dimension metadata and the
suggestion prefix, then trim. -/
def extractIssueCore (text : String) : String :=
  let cs := text.data
  let cs := cs.filter (fun c => !(emojiClassChars.contains c))
  let cs := removeBoldMarks cs
  let cs := cs.filter (fun c => !(c == Char.ofNat 96))
  let cs := removeSeverityMarks cs
  let cs := removeMatches matchConfidenceAt cs
  let cs := removeMatches matchDimensionAt cs
  let cs := removeSuggestionMark cs
  jsTrim (String.mk cs)

/-- `text.toLowerCase().split(/\s+/)` as a token list (empty tokens
from leading/trailing separators are dropped here; they are discarded
by the length filter in the source anyway). -/
def tokenize (cs : List Char) : List (List Char) :=
  (cs.foldr
    (fun c acc =>
      if isJsSpace c then [] :: acc
      else
        match acc with
        | t :: ts => (c :: t) :: ts
        | [] => [[c]])
    []).filter (fun t => !(t.isEmpty))

/-- The word set (insertion-ordered, duplicates removed as a JS `Set`
does) of `text.toLowerCase().split(/\s+/).filter(w => w.length > 2)`. -/
def similarityWords (text : String) : List String :=
  (((tokenize (text.data.map Char.toLower)).map String.mk).filter
    (fun w => 2 < w.length)).eraseDups

/-- `ReviewAgent.calculateTextSimilarity`: Jaccard similarity of the
two word sets; both empty gives 1, exactly one empty gives 0. -/
def calculateTextSimilarity (text1 text2 : String) : ℚ :=
  let words1 := similarityWords text1
  let words2 := similarityWords text2
  if words1.length = 0 ∧ words2.length = 0 then 1
  else if words1.length = 0 ∨ words2.length = 0 then 0
  else
    let inter := words1.filter (fun w => words2.contains w)
    let union := (words1 ++ words2).eraseDups
    (inter.length : ℚ) / (union.length : ℚ)

/-- `ReviewAgent.calculateIssueSimilarity`: 0.6 × message similarity +
0.4 × suggestion similarity, over the extracted cores. -/
def calculateIssueSimilarity (issue1 issue2 : Issue) : ℚ :=
  let messageSimilarity := calculateTextSimilarity
    (extractIssueCore issue1.message) (extractIssueCore issue2.message)
  let suggestionSimilarity := calculateTextSimilarity
    (extractIssueCore issue1.suggestion) (extractIssueCore issue2.suggestion)
  messageSimilarity * 0.6 + suggestionSimilarity * 0.4

/-- Collapse whitespace runs to single spaces (`replace(/\s+/g, ' ')`);
fuel as above. -/
def collapseSpacesAux : Nat → List Char → List Char
  | 0, cs => cs
  | _, [] => []
  | fuel + 1, c :: rest =>
      if isJsSpace c then ' ' :: collapseSpacesAux fuel (rest.dropWhile isJsSpace)
      else c :: collapseSpacesAux fuel rest

/-- Collapse whitespace runs to single spaces. -/
def collapseSpaces (cs : List Char) : List Char := collapseSpacesAux cs.length cs

/-- `ReviewAgent.generateIssueLocationKey`: a snippet-based key when a
(truthy) snippet exists, else a 2-line bucket of the (truthy) line,
else `file:unknown`. -/
def generateIssueLocationKey (issue : Issue) : String :=
  if strTruthy issue.codeSnippet then
    issue.file ++ ":" ++
      String.mk ((collapseSpaces (jsTrim (issue.codeSnippet.getD "")).data).take 100)
  else if natTruthy issue.line then
    issue.file ++ ":" ++ toString (issue.line.getD 0 / 2 * 2)
  else
    issue.file ++ ":unknown"

/-- One step of the grouping loop of
`deduplicateIssuesAcrossDimensions`: append the issue to its location
group, creating the group at the end on first sight (a JS `Map`
preserves insertion order). -/
def insertIssue (groups : List (String × List Issue)) (issue : Issue) :
    List (String × List Issue) :=
  let key := generateIssueLocationKey issue
  if groups.any (fun g => g.1 == key) then
    groups.map (fun g => if g.1 == key then (g.1, g.2 ++ [issue]) else g)
  else groups ++ [(key, [issue])]

/-- The insertion-ordered grouping map of
`deduplicateIssuesAcrossDimensions` (a JS `Map` keyed by location). -/
def groupByKey (issues : List Issue) : List (String × List Issue) :=
  issues.foldl insertIssue []

/-- The `duplicates.reduce(...)` step: the element with the strictly
highest confidence wins, earliest maximal element kept. -/
def pickBest (duplicates : List Issue) (d0 : Issue) : Issue :=
  duplicates.foldl
    (fun best idx => if best.confidence < idx.confidence then idx else best) d0

/-- The greedy clustering loop inside one location group: the first
unprocessed issue seeds a cluster of all later unprocessed issues whose
similarity with the *seed* exceeds 0.85; the cluster's
highest-confidence member survives.  Fuel is the group length, which
suffices because every step consumes the seed. -/
def dedupGroupAux : Nat → List Issue → List Issue
  | 0, g => g
  | _, [] => []
  | fuel + 1, seed :: rest =>
      let parts := rest.partition (fun j => 0.85 < calculateIssueSimilarity seed j)
      pickBest (seed :: parts.1) seed :: dedupGroupAux fuel parts.2

/-- The greedy clustering loop of one location group. -/
def dedupGroup (g : List Issue) : List Issue := dedupGroupAux g.length g

/-- `ReviewAgent.deduplicateIssuesAcrossDimensions`. -/
def deduplicateIssuesAcrossDimensions (issues : List Issue) : List Issue :=
  if issues.length = 0 then issues
  else
    (groupByKey issues).foldl
      (fun deduplicated g =>
        if g.2.length = 1 then deduplicated ++ g.2
        else deduplicated ++ dedupGroup g.2)
      []

/-- A concrete issue on a fixed snippet of `a.ts` (so that all three
issues below share one location group). -/
def mkGroupedIssue (message : String) (confidence : ℚ) : Issue :=
  { file := "a.ts", line := none, codeSnippet := some "const x = 1;",
    severity := "high", topic := "react", message := message,
    suggestion := "", confidence := confidence }

/-- Twelve shared message words (each longer than 2 characters). -/
def commonWords : String :=
  "alpha bravo charlie delta echo foxtrot golf hotel india juliet kilo lima"

/-- Issue Alpha: the twelve shared words plus three of its own;
similarity with Beta is 0.6·(12/15) + 0.4·1 = 0.88 > 0.85, with Gamma
0.6·(12/18) + 0.4·1 = 0.8 ≤ 0.85. -/
def issueAlpha : Issue := mkGroupedIssue (commonWords ++ " mike november oscar") 0.5

/-- Issue Beta: exactly the twelve shared words, highest confidence. -/
def issueBeta : Issue := mkGroupedIssue commonWords 0.9

/-- Issue Gamma: the twelve shared words plus three others; similarity
with Beta is 0.88 > 0.85 but with Alpha only 0.8. -/
def issueGamma : Issue := mkGroupedIssue (commonWords ++ " papa quebec romeo") 0.5

/-! ## Publishing tool (tools/publish-phabricator-comments.ts)

`executeImpl` is embedded as a pure function over its injected
collaborators: the environment value, the parsed diff (or `none` when
loading it failed), the fuzzy line resolver
(`findLineNumberByCodeSnippet`), the duplicate check and the success of
each `createInline` call are oracles supplied in `PublishEnv`; the
external calls the tool makes are returned as an effect list. -/

/-- `line.replace(/^[+\-\s]/, '')`: drop one leading marker character. -/
def stripLineMarker (line : String) : String :=
  match line.data with
  | c :: rest => if c = '+' ∨ c = '-' ∨ isJsSpace c then String.mk rest else line
  | [] => line

/-- Prefix test on character lists. -/
def charsIsPrefixOf : List Char → List Char → Bool
  | [], _ => true
  | _ :: _, [] => false
  | a :: as, b :: bs => a == b && charsIsPrefixOf as bs

/-- Substring test on character lists (JS `String.prototype.includes`;
the empty needle is contained everywhere). -/
def charsIsInfixOf (needle : List Char) : List Char → Bool
  | [] => needle.isEmpty
  | c :: rest => charsIsPrefixOf needle (c :: rest) || charsIsInfixOf needle rest

/-- The match relation of `isCodeSnippetInDeletedLines` and
`findOldLineNumber`:
`lineContent.includes(normalized) || normalized.includes(lineContent)`
on the marker-stripped, trimmed line content. -/
def lineMatchesSnippet (normalized : String) (line : String) : Bool :=
  let lineContent := jsTrim (stripLineMarker line)
  charsIsInfixOf normalized.data lineContent.data
    || charsIsInfixOf lineContent.data normalized.data

/-- JavaScript `line.startsWith(p)` on character lists. -/
def lineStartsWith (p : String) (line : String) : Bool :=
  charsIsPrefixOf p.data line.data

/-- A removed line: `line.startsWith('-') && !line.startsWith('---')`. -/
def isRemovedLine (line : String) : Bool :=
  lineStartsWith "-" line && !(lineStartsWith "---" line)

/-- An added or context line, per the `else if` of
`isCodeSnippetInDeletedLines`. -/
def isAddedOrContextLine (line : String) : Bool :=
  (lineStartsWith "+" line && !(lineStartsWith "+++" line)) ||
  (!(lineStartsWith "-" line) && !(lineStartsWith "+" line) &&
   !(lineStartsWith "@" line) && !(lineStartsWith "\\" line))

/-- One loop step of `isCodeSnippetInDeletedLines`, folding the pair
`(foundInDeleted, foundInAddedOrContext)`. -/
def snippetFlagsStep (normalized : String) (acc : Bool × Bool)
    (line : String) : Bool × Bool :=
  if isRemovedLine line then
    (acc.1 || lineMatchesSnippet normalized line, acc.2)
  else if isAddedOrContextLine line then
    (acc.1, acc.2 || lineMatchesSnippet normalized line)
  else acc

/-- All hunk lines of a file, in hunk order. -/
def allHunkLines (file : DiffFile) : List String :=
  (file.hunks.map (fun h => h.lines)).flatten

/-- `PublishPhabricatorCommentsTool.isCodeSnippetInDeletedLines`. -/
def isCodeSnippetInDeletedLines (file : DiffFile) (codeSnippet : String) : Bool :=
  let normalized := jsTrim codeSnippet
  if normalized == "" then false
  else
    let flags := file.hunks.foldl
      (fun acc hunk => hunk.lines.foldl (snippetFlagsStep normalized) acc)
      (false, false)
    flags.1 && !flags.2

/-- The per-hunk walk of `findOldLineNumber`, tracking the old-file
line counter. -/
def findOldInHunkLines (normalized : String) :
    List String → Nat → Option Nat
  | [], _ => none
  | line :: rest, oldLineNum =>
      if isRemovedLine line then
        if lineMatchesSnippet normalized line then some oldLineNum
        else findOldInHunkLines normalized rest (oldLineNum + 1)
      else if !(lineStartsWith "+" line) && !(lineStartsWith "@" line)
              && !(lineStartsWith "\\" line) then
        findOldInHunkLines normalized rest (oldLineNum + 1)
      else findOldInHunkLines normalized rest oldLineNum

/-- `PublishPhabricatorCommentsTool.findOldLineNumber`. -/
def findOldLineNumber (file : DiffFile) (codeSnippet : String) : Option Nat :=
  let normalized := jsTrim codeSnippet
  if normalized == "" then none
  else
    file.hunks.foldl
      (fun acc hunk =>
        match acc with
        | some n => some n
        | none => findOldInHunkLines normalized hunk.lines hunk.oldStart)
      none

/-- The injected collaborators of `executeImpl`. -/
structure PublishEnv where
  allowPublishEnv : Option String
  diffData : Option (List DiffFile)
  resolveLine : Issue → Option Nat
  isDuplicate : Issue → Nat → Bool
  inlineOk : Issue → Nat → Bool

/-- One external call of the publishing tool. -/
inductive PublishEffect
  | createInline (file : String) (isNewFile : Bool) (line : Nat)
  | submitComments
deriving DecidableEq, Repr

/-- `diffData.files.find(f => f.path === issue.file)`. -/
def findIssueFile (env : PublishEnv) (issue : Issue) : Option DiffFile :=
  match env.diffData with
  | none => none
  | some files => files.find? (fun f => f.path == issue.file)

/-- The line-number resolution and old-file detection of `executeImpl`
for one issue: returns the final `lineNumber` and `isNewFile`. -/
def resolveIssueAnchor (env : PublishEnv) (issue : Issue) : Option Nat × Bool :=
  let ln0 := issue.line
  let ln1 :=
    if !(natTruthy ln0) && strTruthy issue.codeSnippet && env.diffData.isSome then
      match findIssueFile env issue with
      | some _ =>
          let resolvedLine := env.resolveLine issue
          if natTruthy resolvedLine then resolvedLine else ln0
      | none => ln0
    else ln0
  if strTruthy issue.codeSnippet && env.diffData.isSome then
    match findIssueFile env issue with
    | some file =>
        if isCodeSnippetInDeletedLines file (issue.codeSnippet.getD "") then
          let oldLineNumber := findOldLineNumber file (issue.codeSnippet.getD "")
          (if natTruthy oldLineNumber then oldLineNumber else ln1, false)
        else (ln1, true)
    | none => (ln1, true)
  else (ln1, true)

/-- The loop body of `executeImpl` for one issue: the
(published, skipped, failed) increments and the external calls made. -/
def issueStep (env : PublishEnv) (actualDryRun : Bool) (issue : Issue) :
    (Nat × Nat × Nat) × List PublishEffect :=
  let anchor := resolveIssueAnchor env issue
  if !(natTruthy anchor.1) then ((0, 1, 0), [])
  else
    let ln := anchor.1.getD 0
    if env.isDuplicate issue ln then ((0, 1, 0), [])
    else if !actualDryRun then
      if env.inlineOk issue ln then
        ((1, 0, 0), [PublishEffect.createInline issue.file anchor.2 ln])
      else ((0, 0, 1), [PublishEffect.createInline issue.file anchor.2 ln])
    else ((1, 0, 0), [])

/-- The returned counters of `executeImpl`. -/
structure PublishOutput where
  published : Nat
  skipped : Nat
  failed : Nat
  dryRun : Bool
deriving DecidableEq, Repr

/-- Whether an issue passes line resolution and deduplication (the
conditions under which the loop body reaches the publish/dry-run
branch). -/
def issuePasses (env : PublishEnv) (issue : Issue) : Bool :=
  natTruthy (resolveIssueAnchor env issue).1
    && !(env.isDuplicate issue ((resolveIssueAnchor env issue).1.getD 0))

/-- JavaScript `String.prototype.toLowerCase` (character-wise). -/
def jsToLower (s : String) : String := String.mk (s.data.map Char.toLower)

/-- `PublishPhabricatorCommentsTool.executeImpl`: the safety gate
(`ALLOW_PUBLISH_COMMENTS` trimmed and lowercased must be `"true"` or
`"1"`), the per-issue loop, and the final summary comment; returns the
output record and the external calls made. -/
def executeImpl (env : PublishEnv) (dryRun : Bool) (issues : List Issue) :
    PublishOutput × List PublishEffect :=
  let normalizedAllowPublish :=
    (env.allowPublishEnv.map (fun s => jsToLower (jsTrim s))).getD "false"
  let allowPublish :=
    normalizedAllowPublish == "true" || normalizedAllowPublish == "1"
  let actualDryRun := dryRun || !allowPublish
  let folded := issues.foldl
    (fun acc issue =>
      let step := issueStep env actualDryRun issue
      ((acc.1.1 + step.1.1, acc.1.2.1 + step.1.2.1, acc.1.2.2 + step.1.2.2),
        acc.2 ++ step.2))
    ((0, 0, 0), [])
  let published := folded.1.1
  let effects := folded.2 ++
    (if !actualDryRun && 0 < published then [PublishEffect.submitComments] else [])
  ({ published := published, skipped := folded.1.2.1,
     failed := folded.1.2.2, dryRun := actualDryRun }, effects)

/-- A concrete publish environment whose gate value is not enabling:
`" No "` trims and lowercases to `"no"`. -/
def c10Env : PublishEnv :=
  { allowPublishEnv := some " No ", diffData := none,
    resolveLine := fun _ => none,
    isDuplicate := fun _ _ => false,
    inlineOk := fun _ _ => true }

/-- A concrete issue with an explicit line, passing resolution. -/
def c10Issue : Issue :=
  { file := "a.ts", line := some 5, codeSnippet := none,
    severity := "high", topic := "react", message := "m",
    suggestion := "s", confidence := 1 }

/-! ## Worker pool (workers/worker-pool.ts)

The pool is embedded as a state machine.  Each JavaScript callback
(worker `message` / `error` / `exit`, the `setTimeout` expiry, and the
public `executeTask` / `cleanup` calls) is one event; Node's event loop
runs one callback at a time, so a run of the pool is a list of events
folded over the state.  Promise settlement (`job.resolve` /
`job.reject`) and map removal (`activeJobs.delete`) are recorded in
append-only logs so that at-most-once properties can be stated.  The
closure-captured `job` objects live in `jobs` forever (as in JS, where
handlers retain them after the map entry is deleted); membership in the
`activeJobs` map is the `active` list.  The `setImmediate` deferral of
`processQueue` in `finishJob` is folded into the same transition: no
other callback can observe the window between the map deletion and the
queued `processQueue` in a way that affects the properties proved
here. -/

/-- How a submission's promise was settled. -/
inductive SettleOutcome
  | resolved
  | rejectedWorkerFail
  | rejectedTimeout
  | rejectedWorkerError
  | rejectedExitCode (code : Int)
  | rejectedExitNoResponse
deriving DecidableEq, Repr

/-- A queued submission: its id and the task's timeout (0 models a
falsy `task.timeout`). -/
structure QueuedTask where
  subId : Nat
  timeout : Nat
deriving DecidableEq, Repr

/-- The closure-captured per-job record (`WorkerJob` in the source,
minus the worker handle and the promise callbacks, which the logs
replace). -/
structure WorkerJob where
  subId : Nat
  completed : Bool
  timerArmed : Bool
deriving DecidableEq, Repr

/-- The pool state. -/
structure PoolState where
  maxWorkers : Nat
  jobs : List (Nat × WorkerJob)
  active : List Nat
  queue : List QueuedTask
  startedOrder : List Nat
  nextJobId : Nat
  nextSubId : Nat
  settles : List (Nat × SettleOutcome)
  removals : List Nat
deriving DecidableEq, Repr

/-- The constructor: `this.maxWorkers = Math.max(1, maxWorkers)`. -/
def mkPool (maxWorkers : Int) : PoolState :=
  { maxWorkers := (max 1 maxWorkers).toNat, jobs := [], active := [],
    queue := [], startedOrder := [], nextJobId := 0, nextSubId := 0,
    settles := [], removals := [] }

/-- The captured job object for a job id (handlers close over it). -/
def lookupJob (st : PoolState) (jobId : Nat) : Option WorkerJob :=
  (st.jobs.find? (fun p => p.1 == jobId)).map (fun p => p.2)

/-- Update the captured job object in place. -/
def updateJob (st : PoolState) (jobId : Nat) (f : WorkerJob → WorkerJob) :
    PoolState :=
  { st with jobs := st.jobs.map (fun p => if p.1 == jobId then (p.1, f p.2) else p) }

/-- `clearJobTimeout`: reads the job through the `activeJobs` map, so it
is a no-op once the job left the map. -/
def clearJobTimeout (st : PoolState) (jobId : Nat) : PoolState :=
  if st.active.contains jobId then
    updateJob st jobId (fun j => { j with timerArmed := false })
  else st

/-- Record a promise settlement. -/
def settleSub (st : PoolState) (subId : Nat) (o : SettleOutcome) : PoolState :=
  { st with settles := st.settles ++ [(subId, o)] }

/-- `startJob`: create the job record, arm the timer when the task has
a positive timeout, and put the job in the map. -/
def startJob (st : PoolState) (q : QueuedTask) : PoolState :=
  { st with
    nextJobId := st.nextJobId + 1,
    jobs := st.jobs ++
      [(st.nextJobId,
        { subId := q.subId, completed := false, timerArmed := 0 < q.timeout })],
    active := st.active ++ [st.nextJobId],
    startedOrder := st.startedOrder ++ [q.subId] }

/-- The `while` loop of `processQueue` (fuel-structured; the queue
length always suffices, each iteration shifting one task). -/
def processQueueAux : Nat → PoolState → PoolState
  | 0, st => st
  | fuel + 1, st =>
      if st.active.length < st.maxWorkers then
        match st.queue with
        | [] => st
        | q :: rest => processQueueAux fuel (startJob { st with queue := rest } q)
      else st

/-- `processQueue`. -/
def processQueue (st : PoolState) : PoolState :=
  processQueueAux st.queue.length st

/-- `finishJob`: no-op when the job already left the map; otherwise
clear the timer, delete the map entry (logged in `removals`) and let
the queue advance. -/
def finishJob (st : PoolState) (jobId : Nat) : PoolState :=
  if st.active.contains jobId then
    let st1 := clearJobTimeout st jobId
    let st2 := { st1 with
      active := st1.active.filter (fun j => !(j == jobId)),
      removals := st1.removals ++ [jobId] }
    processQueue st2
  else st

/-- `executeTask`: enqueue the submission and run `processQueue`. -/
def executeTask (st : PoolState) (timeout : Nat) : PoolState :=
  processQueue
    { st with
      nextSubId := st.nextSubId + 1,
      queue := st.queue ++ [{ subId := st.nextSubId, timeout := timeout }] }

/-- The worker `message` handler. -/
def onMessage (st : PoolState) (jobId : Nat) (success : Bool) : PoolState :=
  match lookupJob st jobId with
  | none => st
  | some job =>
      if job.completed then st
      else
        let st1 := updateJob st jobId (fun j => { j with completed := true })
        let st2 := clearJobTimeout st1 jobId
        let st3 := settleSub st2 job.subId
          (if success then SettleOutcome.resolved else SettleOutcome.rejectedWorkerFail)
        finishJob st3 jobId

/-- The worker `error` handler. -/
def onError (st : PoolState) (jobId : Nat) : PoolState :=
  match lookupJob st jobId with
  | none => st
  | some job =>
      if job.completed then st
      else
        let st1 := updateJob st jobId (fun j => { j with completed := true })
        let st2 := clearJobTimeout st1 jobId
        let st3 := settleSub st2 job.subId SettleOutcome.rejectedWorkerError
        finishJob st3 jobId

/-- The worker `exit` handler: skips jobs already out of the map, then
rejects when no response was delivered. -/
def onExit (st : PoolState) (jobId : Nat) (code : Int) : PoolState :=
  if !(st.active.contains jobId) then st
  else
    let st1 := clearJobTimeout st jobId
    let st2 :=
      match lookupJob st1 jobId with
      | some job =>
          if !job.completed then
            let st2a := updateJob st1 jobId (fun j => { j with completed := true })
            settleSub st2a job.subId
              (if code ≠ 0 then SettleOutcome.rejectedExitCode code
               else SettleOutcome.rejectedExitNoResponse)
          else st1
      | none => st1
    finishJob st2 jobId

/-- The timeout callback: fires only while the timer is armed (a
cleared timer cannot fire); the `completed` guard then applies. -/
def onTimeout (st : PoolState) (jobId : Nat) : PoolState :=
  match lookupJob st jobId with
  | none => st
  | some job =>
      if !job.timerArmed then st
      else if job.completed then st
      else
        let st1 := updateJob st jobId (fun j => { j with completed := true })
        let st2 := settleSub st1 job.subId SettleOutcome.rejectedTimeout
        finishJob st2 jobId

/-- One iteration of `cleanup` for a captured job id: skip ids already
gone from the map (`activeJobs.get` returns nothing), else mark the job
completed, clear its timer and delete the map entry (the worker is
terminated externally). -/
def cleanupStep (st : PoolState) (jobId : Nat) : PoolState :=
  if st.active.contains jobId then
    match lookupJob st jobId with
    | none => st
    | some _ =>
        let st1 := updateJob st jobId (fun j => { j with completed := true })
        let st2 := clearJobTimeout st1 jobId
        { st2 with
          active := st2.active.filter (fun j => !(j == jobId)),
          removals := st2.removals ++ [jobId] }
  else st

/-- `cleanup`: empty the queue (the queued submissions' promises are
never settled), then process the captured list of active job ids. -/
def cleanup (st : PoolState) : PoolState :=
  let st0 := { st with queue := [] }
  st0.active.foldl cleanupStep st0

/-- One observable event of the pool. -/
inductive PoolEvent
  | submit (timeout : Nat)
  | message (jobId : Nat) (success : Bool)
  | errorEvt (jobId : Nat)
  | exitEvt (jobId : Nat) (code : Int)
  | timeoutFire (jobId : Nat)
  | cleanupCall
deriving DecidableEq, Repr

/-- The transition function. -/
def poolStep (st : PoolState) : PoolEvent → PoolState
  | PoolEvent.submit t => executeTask st t
  | PoolEvent.message j s => onMessage st j s
  | PoolEvent.errorEvt j => onError st j
  | PoolEvent.exitEvt j c => onExit st j c
  | PoolEvent.timeoutFire j => onTimeout st j
  | PoolEvent.cleanupCall => cleanup st

/-- A run of the pool. -/
def runPool (st : PoolState) (events : List PoolEvent) : PoolState :=
  events.foldl poolStep st

/-- The C2 scenario: capacity 1, a running job, a queued submission,
then `cleanup()`. -/
def c2State : PoolState :=
  runPool (mkPool 1)
    [PoolEvent.submit 0, PoolEvent.submit 0, PoolEvent.cleanupCall]

/-- The C6 scenario: capacity 1, a running job with a 5 ms timeout and
a queued second submission. -/
def c6State : PoolState :=
  runPool (mkPool 1) [PoolEvent.submit 5, PoolEvent.submit 7]

/-- The pool's reachable-state invariant: the concurrency ceiling, the
FIFO structure of queue and start order, freshness of identifiers, the
correspondence between the `activeJobs` map and the captured job
records, and the at-most-once discipline of settlements and map
removals. -/
structure PoolInv (st : PoolState) : Prop where
  oneLe : 1 ≤ st.maxWorkers
  capa : st.active.length ≤ st.maxWorkers
  queueSorted : List.Sorted (· < ·) (st.queue.map (fun q => q.subId))
  startedSorted : List.Sorted (· < ·) st.startedOrder
  startedBeforeQueued : ∀ s ∈ st.startedOrder, ∀ q ∈ st.queue, s < q.subId
  queuedLt : ∀ q ∈ st.queue, q.subId < st.nextSubId
  startedLt : ∀ s ∈ st.startedOrder, s < st.nextSubId
  jobIdLt : ∀ p ∈ st.jobs, p.1 < st.nextJobId
  jobKeysNodup : (st.jobs.map (fun p => p.1)).Nodup
  activeNodup : st.active.Nodup
  activeSub : ∀ j ∈ st.active, j ∈ st.jobs.map (fun p => p.1)
  startedEq : st.startedOrder = st.jobs.map (fun p => p.2.subId)
  settleNodup : (st.settles.map (fun p => p.1)).Nodup
  settleCompleted : ∀ p ∈ st.settles, ∀ pr ∈ st.jobs,
    pr.2.subId = p.1 → pr.2.completed = true
  settleStarted : ∀ p ∈ st.settles, p.1 ∈ st.startedOrder
  removalNodup : st.removals.Nodup
  removalNotActive : ∀ j ∈ st.removals, j ∉ st.active
  removalKeys : ∀ j ∈ st.removals, j ∈ st.jobs.map (fun p => p.1)

/-- A submission id that the pool can no longer reference: it is not
queued, no job carries it, it was never settled, and it is below the
next fresh id.  Submission 1 of the C2 scenario is in this state after
`cleanup`, which is why its promise can never settle. -/
def SubGone (st : PoolState) (s : Nat) : Prop :=
  (∀ q ∈ st.queue, q.subId ≠ s) ∧ (∀ p ∈ st.jobs, p.2.subId ≠ s)
    ∧ (∀ p ∈ st.settles, p.1 ≠ s) ∧ s < st.nextSubId

instance (st : PoolState) (s : Nat) : Decidable (SubGone st s) := by
  unfold SubGone
  infer_instance

end FeTestGen

namespace FeTestGen

/-! ## Claim theorems: incremental decision and fingerprint -/

/-- Helper: the decision never depends on the previously stored
fingerprint, because `initState` overwrites it before the comparison. -/
theorem runIsIncremental_eq_mode (stored : Option RevisionState)
    (mode revisionId diffId newFingerprint : String) :
    runIsIncremental stored mode revisionId diffId newFingerprint
      = (mode == "incremental") := by
  cases stored <;>
    simp [runIsIncremental, isIncrementalDecision, initState]

/-- C1: the incremental-vs-full decision does not compare the new
fingerprint against the previously stored one.  `initState` overwrites
the stored fingerprint with the newly computed value before it is
returned, so the comparison `state.diffFingerprint === diffFingerprint`
is always true and the run is incremental whenever `mode` is
`"incremental"` — even when the stored fingerprint (here `"oldfp"`)
differs from the new one (`"newfp"`), where the claim requires a full
run.  The second conjunct shows the decision is a function of the mode
alone, for every stored state. -/
theorem incrementalDecision_ignores_stored_fingerprint :
    runIsIncremental
        (some { revisionId := "D42", diffId := "1",
                diffFingerprint := "oldfp", tests := [] })
        "incremental" "D42" "2" "newfp" = true
    ∧ ∀ (stored : Option RevisionState) (mode revisionId diffId fp : String),
        runIsIncremental stored mode revisionId diffId fp
          = (mode == "incremental") := by
  constructor
  · rfl
  · intro stored mode revisionId diffId fp
    exact runIsIncremental_eq_mode stored mode revisionId diffId fp

/-- C3 counterexample: two diffs whose file lists hold the same
`(path, additions, deletions)` tuples in different orders (the second
list is a permutation of the first) receive different fingerprints:
`computeDiffFingerprint` joins the tuples in file-list order and never
sorts by path. -/
theorem computeDiffFingerprint_not_order_invariant :
    List.Perm permDiffLeft.files permDiffRight.files
    ∧ computeDiffFingerprint permDiffLeft ≠ computeDiffFingerprint permDiffRight := by
  constructor
  · decide
  · decide

/-- C3 (amended): the fingerprint is a function of the *ordered*
sequence of `(path, additions, deletions)` tuples: two diffs whose file
lists project to the same tuple sequence (in the same order) receive
the same fingerprint, whatever their other per-file data; permuting the
file list is not covered and can change the hash. -/
theorem computeDiffFingerprint_depends_only_on_tuple_sequence
    (d1 d2 : Diff)
    (h : d1.files.map (fun f => (f.path, f.additions, f.deletions))
       = d2.files.map (fun f => (f.path, f.additions, f.deletions))) :
    computeDiffFingerprint d1 = computeDiffFingerprint d2 := by
  unfold computeDiffFingerprint fingerprintContent
  have e1 := congrArg
    (List.map (fun t : String × Nat × Nat =>
      t.1 ++ ":" ++ toString t.2.1 ++ ":" ++ toString t.2.2)) h
  rw [List.map_map, List.map_map] at e1
  have e2 : (d1.files.map fun f =>
      f.path ++ ":" ++ toString f.additions ++ ":" ++ toString f.deletions)
      = d2.files.map fun f =>
      f.path ++ ":" ++ toString f.additions ++ ":" ++ toString f.deletions := e1
  rw [e2]

/-- C3 witness: two single-file diffs differing only in `changeType`
project to the same tuple sequence, so the amended theorem applies and
their fingerprints agree. -/
theorem computeDiffFingerprint_depends_only_on_tuple_sequence_witness :
    computeDiffFingerprint ⟨[⟨"a.ts", "modified", 1, 0, []⟩]⟩
      = computeDiffFingerprint ⟨[⟨"a.ts", "added", 1, 0, []⟩]⟩ :=
  computeDiffFingerprint_depends_only_on_tuple_sequence
    ⟨[⟨"a.ts", "modified", 1, 0, []⟩]⟩ ⟨[⟨"a.ts", "added", 1, 0, []⟩]⟩ (by decide)

/-! ## Claim theorems: deduplicator -/

/-- Helper: the `reduce` step always returns one of the visited issues
or its initial value. -/
theorem pickBest_mem : ∀ (l : List Issue) (d0 : Issue), pickBest l d0 ∈ d0 :: l := by
  intro l
  induction l with
  | nil => intro d0; simp [pickBest]
  | cons c t ih =>
      intro d0
      have h1 : pickBest (c :: t) d0
          = pickBest t (if d0.confidence < c.confidence then c else d0) := rfl
      rw [h1]
      have h2 := ih (if d0.confidence < c.confidence then c else d0)
      rcases List.mem_cons.mp h2 with he | ht
      · rw [he]
        split
        · exact List.mem_cons_of_mem d0 (List.mem_cons_self c t)
        · exact List.mem_cons_self d0 (c :: t)
      · exact List.mem_cons_of_mem d0 (List.mem_cons_of_mem c ht)

/-- Helper: the `reduce` step returns an issue whose confidence bounds
every visited issue and the initial value. -/
theorem pickBest_le :
    ∀ (l : List Issue) (d0 : Issue),
      ∀ x ∈ d0 :: l, x.confidence ≤ (pickBest l d0).confidence := by
  intro l
  induction l with
  | nil =>
      intro d0 x hx
      rw [List.mem_singleton] at hx
      rw [hx]
      exact le_refl _
  | cons c t ih =>
      intro d0 x hx
      show x.confidence ≤ (pickBest t (if d0.confidence < c.confidence then c else d0)).confidence
      by_cases h : d0.confidence < c.confidence
      · rw [if_pos h]
        rcases List.mem_cons.mp hx with rfl | hx2
        · exact le_trans (le_of_lt h) (ih c c (List.mem_cons_self c t))
        · exact ih c x hx2
      · rw [if_neg h]
        rcases List.mem_cons.mp hx with rfl | hx2
        · exact ih x x (List.mem_cons_self x t)
        · rcases List.mem_cons.mp hx2 with rfl | hx3
          · exact le_trans (le_of_not_lt h) (ih d0 d0 (List.mem_cons_self d0 t))
          · exact ih d0 x (List.mem_cons_of_mem d0 hx3)

/-- Helper: every issue the greedy clustering loop emits belongs to its
input group. -/
theorem dedupGroupAux_subset :
    ∀ (fuel : Nat) (g : List Issue), ∀ x ∈ dedupGroupAux fuel g, x ∈ g := by
  intro fuel
  induction fuel with
  | zero => intro g x hx; simpa [dedupGroupAux] using hx
  | succ fuel ih =>
      intro g x hx
      cases g with
      | nil => simp [dedupGroupAux] at hx
      | cons seed rest =>
          simp only [dedupGroupAux, List.partition_eq_filter_filter] at hx
          rcases List.mem_cons.mp hx with he | ht
          · have h1 := pickBest_mem
              (seed :: rest.filter (fun j => 0.85 < calculateIssueSimilarity seed j)) seed
            rw [← he] at h1
            rcases List.mem_cons.mp h1 with h2 | h2
            · rw [h2]; exact List.mem_cons_self seed rest
            rcases List.mem_cons.mp h2 with h3 | h3
            · rw [h3]; exact List.mem_cons_self seed rest
            · exact List.mem_cons_of_mem seed (List.mem_of_mem_filter h3)
          · have h2 := ih _ x ht
            exact List.mem_cons_of_mem seed (List.mem_of_mem_filter h2)

/-- Helper: issues inside any group produced by one grouping step come
from the previous groups or are the inserted issue. -/
theorem insertIssue_mem (groups : List (String × List Issue)) (issue : Issue)
    (p : String × List Issue) (hp : p ∈ insertIssue groups issue)
    (y : Issue) (hy : y ∈ p.2) :
    (∃ q ∈ groups, y ∈ q.2) ∨ y = issue := by
  simp only [insertIssue] at hp
  split at hp
  · rcases List.mem_map.mp hp with ⟨q, hq, hpq⟩
    split at hpq
    · rw [← hpq] at hy
      rcases List.mem_append.mp hy with h | h
      · exact Or.inl ⟨q, hq, h⟩
      · exact Or.inr (List.mem_singleton.mp h)
    · rw [← hpq] at hy
      exact Or.inl ⟨q, hq, hy⟩
  · rcases List.mem_append.mp hp with h | h
    · exact Or.inl ⟨p, h, hy⟩
    · rw [List.mem_singleton] at h
      rw [h] at hy
      exact Or.inr (List.mem_singleton.mp hy)

/-- Helper: issues inside the grouping fold's output come from its
accumulator or from the processed issues. -/
theorem foldl_insertIssue_mem :
    ∀ (todo : List Issue) (acc : List (String × List Issue))
      (p : String × List Issue), p ∈ todo.foldl insertIssue acc →
      ∀ y ∈ p.2, (∃ q ∈ acc, y ∈ q.2) ∨ y ∈ todo := by
  intro todo
  induction todo with
  | nil => intro acc p hp y hy; exact Or.inl ⟨p, hp, hy⟩
  | cons i rest ih =>
      intro acc p hp y hy
      rcases ih (insertIssue acc i) p hp y hy with ⟨q, hq, hyq⟩ | hmem
      · rcases insertIssue_mem acc i q hq y hyq with h2 | h2
        · exact Or.inl h2
        · rw [h2]; exact Or.inr (List.mem_cons_self i rest)
      · exact Or.inr (List.mem_cons_of_mem i hmem)

/-- Helper: every issue of every location group is an input issue. -/
theorem groupByKey_mem (issues : List Issue) (p : String × List Issue)
    (hp : p ∈ groupByKey issues) (y : Issue) (hy : y ∈ p.2) : y ∈ issues := by
  rcases foldl_insertIssue_mem issues [] p hp y hy with ⟨q, hq, _⟩ | h
  · simp at hq
  · exact h

/-- Helper: issues in the deduplication fold come from the accumulator
or from one of the groups. -/
theorem dedup_foldl_mem :
    ∀ (gs : List (String × List Issue)) (acc : List Issue) (x : Issue),
      x ∈ gs.foldl
        (fun deduplicated g =>
          if g.2.length = 1 then deduplicated ++ g.2
          else deduplicated ++ dedupGroup g.2) acc →
      x ∈ acc ∨ ∃ g ∈ gs, x ∈ g.2 := by
  intro gs
  induction gs with
  | nil => intro acc x hx; exact Or.inl hx
  | cons g rest ih =>
      intro acc x hx
      rcases ih _ x hx with h | ⟨g2, hg2, hx2⟩
      · simp only [] at h
        by_cases hc : g.2.length = 1
        · rw [if_pos hc] at h
          rcases List.mem_append.mp h with h2 | h2
          · exact Or.inl h2
          · exact Or.inr ⟨g, List.mem_cons_self g rest, h2⟩
        · rw [if_neg hc] at h
          rcases List.mem_append.mp h with h2 | h2
          · exact Or.inl h2
          · exact Or.inr ⟨g, List.mem_cons_self g rest,
              dedupGroupAux_subset g.2.length g.2 x h2⟩
      · exact Or.inr ⟨g2, List.mem_cons_of_mem g hg2, hx2⟩

section RatEval

attribute [local semireducible] Rat.mul Rat.inv Rat.add Rat.sub Rat.ofScientific

set_option maxRecDepth 10000

/-- C4 counterexample: on `[Alpha, Beta, Gamma]` (one location group;
Alpha–Beta and Beta–Gamma are 0.88-similar, Alpha–Gamma only
0.8-similar) one deduplication pass keeps `[Beta, Gamma]` — Beta
replaces the seed Alpha as the surviving cluster member, and Gamma was
compared only against the seed Alpha — so the survivors Beta and Gamma
still share a location group with blended similarity 0.88 > 0.85, and a
second pass merges them: the deduplication is not idempotent. -/
theorem dedup_not_idempotent :
    deduplicateIssuesAcrossDimensions
        (deduplicateIssuesAcrossDimensions [issueAlpha, issueBeta, issueGamma])
      ≠ deduplicateIssuesAcrossDimensions [issueAlpha, issueBeta, issueGamma] := by
  decide

end RatEval

/-- C4 (amended): the pass is not idempotent — surviving issues of the
same location group can still be more than 0.85-similar, because merge
candidates are compared only against their cluster's seed, and the
survivor may differ from the seed; a second pass can then merge
further.  What does hold is soundness of the output: every issue the
deduplication returns is one of the input issues. -/
theorem dedup_output_issues_come_from_input (issues : List Issue) (x : Issue)
    (hx : x ∈ deduplicateIssuesAcrossDimensions issues) : x ∈ issues := by
  unfold deduplicateIssuesAcrossDimensions at hx
  by_cases h0 : issues.length = 0
  · rw [if_pos h0] at hx
    exact hx
  · rw [if_neg h0] at hx
    rcases dedup_foldl_mem (groupByKey issues) [] x hx with h | ⟨g, hg, hx2⟩
    · simp at h
    · exact groupByKey_mem issues g hg x hx2

section RatEval2

attribute [local semireducible] Rat.mul Rat.inv Rat.add Rat.sub Rat.ofScientific

set_option maxRecDepth 10000

/-- C4 witness: Beta survives the deduplication of
`[Alpha, Beta, Gamma]`, and by the amended theorem it is one of the
input issues. -/
theorem dedup_output_issues_come_from_input_witness :
    issueBeta ∈ [issueAlpha, issueBeta, issueGamma] :=
  dedup_output_issues_come_from_input [issueAlpha, issueBeta, issueGamma]
    issueBeta (by decide)

end RatEval2

/-- Helper: with enough fuel, the greedy clustering loop computes
`dedupGroup`. -/
theorem dedupGroupAux_eq_dedupGroup :
    ∀ (fuel : Nat) (g : List Issue), g.length ≤ fuel →
      dedupGroupAux fuel g = dedupGroup g := by
  intro fuel
  induction fuel using Nat.strong_induction_on with
  | _ fuel ih =>
      intro g hg
      cases fuel with
      | zero =>
          have : g = [] := List.length_eq_zero.mp (Nat.le_zero.mp hg)
          rw [this]
          rfl
      | succ fuel =>
          cases g with
          | nil => rfl
          | cons seed rest =>
              have hrest : rest.length ≤ fuel := by
                simpa [Nat.succ_le_succ_iff] using hg
              have hlen : (rest.partition
                  (fun j => 0.85 < calculateIssueSimilarity seed j)).2.length
                  ≤ rest.length := by
                rw [List.partition_eq_filter_filter]
                exact List.length_filter_le _ _
              show dedupGroupAux (fuel + 1) (seed :: rest)
                = dedupGroupAux (rest.length + 1) (seed :: rest)
              simp only [dedupGroupAux]
              congr 1
              rw [ih fuel (Nat.lt_succ_self fuel) _ (le_trans hlen hrest),
                  ih rest.length (Nat.lt_succ_of_le hrest) _ hlen]

/-- C5: inside one location group the greedy loop seeds a cluster at
the first unprocessed issue, merges exactly the later issues whose
blended similarity with the seed exceeds 0.85 (`partition`'s first
component), and emits as the sole survivor of that cluster a member of
the cluster whose confidence is the maximum confidence over all merged
issues; the loop then continues on the unmerged remainder. -/
theorem dedupGroup_survivor_has_max_confidence (seed : Issue) (rest : List Issue) :
    dedupGroup (seed :: rest)
      = pickBest (seed :: (rest.partition
            (fun j => 0.85 < calculateIssueSimilarity seed j)).1) seed
        :: dedupGroup (rest.partition
            (fun j => 0.85 < calculateIssueSimilarity seed j)).2
    ∧ pickBest (seed :: (rest.partition
          (fun j => 0.85 < calculateIssueSimilarity seed j)).1) seed
        ∈ seed :: (rest.partition
          (fun j => 0.85 < calculateIssueSimilarity seed j)).1
    ∧ ∀ x ∈ seed :: (rest.partition
          (fun j => 0.85 < calculateIssueSimilarity seed j)).1,
        x.confidence ≤ (pickBest (seed :: (rest.partition
          (fun j => 0.85 < calculateIssueSimilarity seed j)).1) seed).confidence := by
  refine ⟨?_, ?_, ?_⟩
  · have hlen : (rest.partition
        (fun j => 0.85 < calculateIssueSimilarity seed j)).2.length
        ≤ rest.length := by
      rw [List.partition_eq_filter_filter]
      exact List.length_filter_le _ _
    show dedupGroupAux (rest.length + 1) (seed :: rest) = _
    simp only [dedupGroupAux]
    congr 1
    exact dedupGroupAux_eq_dedupGroup rest.length _ hlen
  · have h1 := pickBest_mem
      (seed :: (rest.partition (fun j => 0.85 < calculateIssueSimilarity seed j)).1) seed
    rcases List.mem_cons.mp h1 with h2 | h2
    · rw [h2]
      exact List.mem_cons_self _ _
    · exact h2
  · intro x hx
    exact pickBest_le
      (seed :: (rest.partition (fun j => 0.85 < calculateIssueSimilarity seed j)).1)
      seed x (List.mem_cons_of_mem seed hx)

/-! ## Claim theorems: publishing tool -/

/-- Helper: a removed line (leading `-`) is never classified as added
or context. -/
theorem removed_not_addedOrContext (line : String)
    (h : isRemovedLine line = true) : isAddedOrContextLine line = false := by
  unfold isRemovedLine at h
  unfold isAddedOrContextLine
  have e1 : ("-" : String).data = ['-'] := rfl
  have e2 : ("+" : String).data = ['+'] := rfl
  cases hl : line.data with
  | nil =>
      exfalso
      rw [Bool.and_eq_true] at h
      have := h.1
      unfold lineStartsWith at this
      rw [e1, hl] at this
      simp [charsIsPrefixOf] at this
  | cons a as =>
      rw [Bool.and_eq_true] at h
      have h1 := h.1
      unfold lineStartsWith at h1 ⊢
      rw [e1, hl] at h1
      simp only [charsIsPrefixOf, Bool.and_true] at h1
      have ha' : '-' = a := by simpa using h1
      have ha : a = '-' := ha'.symm
      rw [e2, e1, hl]
      simp [charsIsPrefixOf, ha]

/-- Helper: the flag fold of `isCodeSnippetInDeletedLines` over one
line list computes whether any removed line matches and whether any
added/context line matches. -/
theorem linesFold_flags (normalized : String) :
    ∀ (lines : List String) (acc : Bool × Bool),
      lines.foldl (snippetFlagsStep normalized) acc
        = (acc.1 || lines.any
             (fun l => isRemovedLine l && lineMatchesSnippet normalized l),
           acc.2 || lines.any
             (fun l => isAddedOrContextLine l && lineMatchesSnippet normalized l)) := by
  intro lines
  induction lines with
  | nil => intro acc; simp
  | cons l rest ih =>
      intro acc
      rw [List.foldl_cons, ih]
      by_cases h1 : isRemovedLine l = true
      · have h2 := removed_not_addedOrContext l h1
        simp [snippetFlagsStep, h1, h2, List.any_cons, Bool.or_assoc]
      · rw [Bool.not_eq_true] at h1
        by_cases h2 : isAddedOrContextLine l = true
        · simp [snippetFlagsStep, h1, h2, List.any_cons, Bool.or_assoc]
        · rw [Bool.not_eq_true] at h2
          simp [snippetFlagsStep, h1, h2, List.any_cons]

/-- Helper: the hunk-and-line double fold equals the two `any`s over
all hunk lines. -/
theorem hunksFold_flags (normalized : String) (file : DiffFile) :
    file.hunks.foldl
        (fun acc hunk => hunk.lines.foldl (snippetFlagsStep normalized) acc)
        (false, false)
      = ((allHunkLines file).any
           (fun l => isRemovedLine l && lineMatchesSnippet normalized l),
         (allHunkLines file).any
           (fun l => isAddedOrContextLine l && lineMatchesSnippet normalized l)) := by
  have aux : ∀ (hunks : List DiffHunk) (acc : Bool × Bool),
      hunks.foldl
          (fun acc hunk => hunk.lines.foldl (snippetFlagsStep normalized) acc) acc
        = (acc.1 || ((hunks.map (fun h => h.lines)).flatten).any
             (fun l => isRemovedLine l && lineMatchesSnippet normalized l),
           acc.2 || ((hunks.map (fun h => h.lines)).flatten).any
             (fun l => isAddedOrContextLine l && lineMatchesSnippet normalized l)) := by
    intro hunks
    induction hunks with
    | nil => intro acc; simp
    | cons h hs ih =>
        intro acc
        rw [List.foldl_cons, linesFold_flags, ih]
        simp [List.any_append, Bool.or_assoc]
  rw [show allHunkLines file = (file.hunks.map (fun h => h.lines)).flatten from rfl,
      aux]
  simp

/-- Helper: `isCodeSnippetInDeletedLines` holds exactly when the
trimmed snippet is nonempty, matches some removed line, and matches no
added or context line. -/
theorem isCodeSnippetInDeletedLines_iff (file : DiffFile) (codeSnippet : String) :
    isCodeSnippetInDeletedLines file codeSnippet = true
      ↔ (jsTrim codeSnippet ≠ ""
         ∧ (∃ line ∈ allHunkLines file, isRemovedLine line = true
              ∧ lineMatchesSnippet (jsTrim codeSnippet) line = true)
         ∧ ∀ line ∈ allHunkLines file, isAddedOrContextLine line = true
             → lineMatchesSnippet (jsTrim codeSnippet) line = false) := by
  unfold isCodeSnippetInDeletedLines
  by_cases he : jsTrim codeSnippet = ""
  · simp [he]
  · have he2 : (jsTrim codeSnippet == "") = false := by
      simpa using he
    simp only [he2, Bool.false_eq_true, if_false, hunksFold_flags,
      Bool.and_eq_true, Bool.not_eq_true', List.any_eq_true, List.any_eq_false]
    constructor
    · rintro ⟨⟨l, hl, hrem, hmatch⟩, hno⟩
      refine ⟨he, ⟨l, hl, hrem, hmatch⟩, ?_⟩
      intro line hline hac
      by_cases hm : lineMatchesSnippet (jsTrim codeSnippet) line = true
      · exact absurd ⟨hac, hm⟩ (hno line hline)
      · rwa [Bool.not_eq_true] at hm
    · rintro ⟨_, ⟨l, hl, hrem, hmatch⟩, hno⟩
      refine ⟨⟨l, hl, hrem, hmatch⟩, ?_⟩
      intro line hline h
      have hm := hno line hline h.1
      rw [h.2] at hm
      simp at hm

/-- C9: the publish step anchors a comment to the old file
(`isNewFile = false`) exactly when the issue has a (truthy) code
snippet, the parsed diff contains the issue's file, and the trimmed
snippet matches (by the code's two-sided substring containment over
marker-stripped trimmed lines) at least one removed line of the file's
hunks while matching no added or context line; in every other case the
comment is anchored to the new file (`isNewFile = true`). -/
theorem publish_old_file_anchor_iff (env : PublishEnv) (issue : Issue) :
    (resolveIssueAnchor env issue).2 = false
      ↔ (strTruthy issue.codeSnippet = true
         ∧ ∃ file, findIssueFile env issue = some file
           ∧ (jsTrim (issue.codeSnippet.getD "") ≠ ""
              ∧ (∃ line ∈ allHunkLines file, isRemovedLine line = true
                   ∧ lineMatchesSnippet (jsTrim (issue.codeSnippet.getD "")) line = true)
              ∧ ∀ line ∈ allHunkLines file, isAddedOrContextLine line = true
                  → lineMatchesSnippet (jsTrim (issue.codeSnippet.getD "")) line = false)) := by
  unfold resolveIssueAnchor
  by_cases hs : strTruthy issue.codeSnippet = true
  · by_cases hd : env.diffData.isSome = true
    · cases hfind : findIssueFile env issue with
      | none => simp [hs, hd, hfind]
      | some file =>
          by_cases hdel :
              isCodeSnippetInDeletedLines file (issue.codeSnippet.getD "") = true
          · simp only [hs, hd, hfind, hdel, Bool.and_self, if_true, if_pos]
            constructor
            · intro _
              exact ⟨by simp [hs], file, rfl,
                (isCodeSnippetInDeletedLines_iff file (issue.codeSnippet.getD "")).mp hdel⟩
            · intro _
              trivial
          · rw [Bool.not_eq_true] at hdel
            simp only [hs, hd, hfind, hdel, Bool.and_self, if_true,
              Bool.false_eq_true, if_false]
            constructor
            · intro h
              simp at h
            · rintro ⟨_, file2, hf2, hcond⟩
              injection hf2 with hf2
              have htrue := (isCodeSnippetInDeletedLines_iff file2
                (issue.codeSnippet.getD "")).mpr hcond
              rw [← hf2] at htrue
              rw [htrue] at hdel
              simp at hdel
    · rw [Bool.not_eq_true] at hd
      have hfind : findIssueFile env issue = none := by
        unfold findIssueFile
        cases henv : env.diffData with
        | none => rfl
        | some files => rw [henv] at hd; simp at hd
      simp [hs, hd, hfind]
  · rw [Bool.not_eq_true] at hs
    simp [hs]

/-- Helper: in dry-run mode the per-issue loop body makes no external
calls and counts one published for each issue passing resolution and
deduplication, one skipped otherwise. -/
theorem issueStep_dryRun (env : PublishEnv) (issue : Issue) :
    issueStep env true issue
      = ((if issuePasses env issue then 1 else 0,
          if issuePasses env issue then 0 else 1, 0), []) := by
  unfold issueStep issuePasses
  by_cases h1 : natTruthy (resolveIssueAnchor env issue).1 = true
  · by_cases h2 : env.isDuplicate issue ((resolveIssueAnchor env issue).1.getD 0) = true
    · simp [h1, h2]
    · simp [h1, h2]
  · rw [Bool.not_eq_true] at h1
    simp [h1]

/-- Helper: the dry-run fold accumulates the pass/fail counts and
leaves the effect list untouched. -/
theorem publishFold_dryRun (env : PublishEnv) :
    ∀ (issues : List Issue) (a b c : Nat) (effs : List PublishEffect),
      issues.foldl
        (fun acc issue =>
          let step := issueStep env true issue
          ((acc.1.1 + step.1.1, acc.1.2.1 + step.1.2.1, acc.1.2.2 + step.1.2.2),
            acc.2 ++ step.2))
        ((a, b, c), effs)
      = ((a + (issues.filter (fun i => issuePasses env i)).length,
          b + (issues.filter (fun i => !(issuePasses env i))).length, c), effs) := by
  intro issues
  induction issues with
  | nil => intro a b c effs; simp
  | cons i rest ih =>
      intro a b c effs
      set f := (fun (acc : (Nat × Nat × Nat) × List PublishEffect) issue =>
        let step := issueStep env true issue
        ((acc.1.1 + step.1.1, acc.1.2.1 + step.1.2.1, acc.1.2.2 + step.1.2.2),
          acc.2 ++ step.2)) with hf
      rw [List.foldl_cons]
      have happ : f ((a, b, c), effs) i
          = ((a + (if issuePasses env i then 1 else 0),
              b + (if issuePasses env i then 0 else 1), c), effs) := by
        rw [hf]
        simp [issueStep_dryRun]
      rw [happ, ih]
      by_cases hp : issuePasses env i = true
      · simp [List.filter_cons, hp, Prod.ext_iff]
        omega
      · rw [Bool.not_eq_true] at hp
        simp [List.filter_cons, hp, Prod.ext_iff]
        omega

/-- C10: when the `ALLOW_PUBLISH_COMMENTS` value, trimmed and
lowercased, is neither `"true"` nor `"1"`, `executeImpl` makes no
`createInline` or `submitComments` call even with `dryRun = false`; the
returned `dryRun` field is `true` and the returned `published` counter
equals the number of issues that pass line resolution and
deduplication. -/
theorem publish_gate_forces_dry_run (env : PublishEnv) (dryRun : Bool)
    (issues : List Issue)
    (h : (((env.allowPublishEnv.map (fun s => jsToLower (jsTrim s))).getD "false" == "true")
          || ((env.allowPublishEnv.map (fun s => jsToLower (jsTrim s))).getD "false" == "1"))
         = false) :
    (executeImpl env dryRun issues).2 = []
    ∧ (executeImpl env dryRun issues).1.dryRun = true
    ∧ (executeImpl env dryRun issues).1.published
        = (issues.filter (fun i => issuePasses env i)).length := by
  unfold executeImpl
  simp only [h, Bool.not_false, Bool.or_true]
  rw [publishFold_dryRun env issues 0 0 0 []]
  simp

/-- C10 witness: with the gate value `" No "` (normalising to `"no"`)
and `dryRun = false`, a one-issue run makes no external call, reports
`dryRun = true`, and counts the resolvable issue as published. -/
theorem publish_gate_forces_dry_run_witness :
    (executeImpl c10Env false [c10Issue]).2 = []
    ∧ (executeImpl c10Env false [c10Issue]).1.dryRun = true
    ∧ (executeImpl c10Env false [c10Issue]).1.published
        = ([c10Issue].filter (fun i => issuePasses c10Env i)).length :=
  publish_gate_forces_dry_run c10Env false [c10Issue] (by decide)

/-! ## Claim theorems: worker pool -/

/-- Helper: `updateJob` keeps every field except the job records. -/
theorem updateJob_fields (st : PoolState) (jobId : Nat) (f : WorkerJob → WorkerJob) :
    (updateJob st jobId f).active = st.active
    ∧ (updateJob st jobId f).queue = st.queue
    ∧ (updateJob st jobId f).settles = st.settles
    ∧ (updateJob st jobId f).removals = st.removals
    ∧ (updateJob st jobId f).startedOrder = st.startedOrder
    ∧ (updateJob st jobId f).maxWorkers = st.maxWorkers
    ∧ (updateJob st jobId f).nextJobId = st.nextJobId
    ∧ (updateJob st jobId f).nextSubId = st.nextSubId :=
  ⟨rfl, rfl, rfl, rfl, rfl, rfl, rfl, rfl⟩

/-- Helper: `updateJob` keeps the job keys. -/
theorem updateJob_keys (st : PoolState) (jobId : Nat) (f : WorkerJob → WorkerJob) :
    (updateJob st jobId f).jobs.map (fun p => p.1) = st.jobs.map (fun p => p.1) := by
  unfold updateJob
  rw [List.map_map]
  apply List.map_congr_left
  intro p _
  simp only [Function.comp_apply]
  split <;> rfl

/-- Helper: `updateJob` with a subId-preserving function keeps the
subId sequence. -/
theorem updateJob_subIds (st : PoolState) (jobId : Nat) (f : WorkerJob → WorkerJob)
    (hf : ∀ j, (f j).subId = j.subId) :
    (updateJob st jobId f).jobs.map (fun p => p.2.subId)
      = st.jobs.map (fun p => p.2.subId) := by
  unfold updateJob
  rw [List.map_map]
  apply List.map_congr_left
  intro p _
  simp only [Function.comp_apply]
  split
  · exact hf p.2
  · rfl

/-- Helper: membership in the updated job list. -/
theorem updateJob_mem (st : PoolState) (jobId : Nat) (f : WorkerJob → WorkerJob)
    (pr : Nat × WorkerJob) (hpr : pr ∈ (updateJob st jobId f).jobs) :
    ∃ p ∈ st.jobs, pr = (if p.1 == jobId then (p.1, f p.2) else p) := by
  unfold updateJob at hpr
  rcases List.mem_map.mp hpr with ⟨p, hp, he⟩
  exact ⟨p, hp, he.symm⟩

/-- Helper: `clearJobTimeout` keeps every field except the job
records, and keeps keys and subIds. -/
theorem clearJobTimeout_fields (st : PoolState) (jobId : Nat) :
    (clearJobTimeout st jobId).active = st.active
    ∧ (clearJobTimeout st jobId).queue = st.queue
    ∧ (clearJobTimeout st jobId).settles = st.settles
    ∧ (clearJobTimeout st jobId).removals = st.removals
    ∧ (clearJobTimeout st jobId).startedOrder = st.startedOrder
    ∧ (clearJobTimeout st jobId).maxWorkers = st.maxWorkers
    ∧ (clearJobTimeout st jobId).nextJobId = st.nextJobId
    ∧ (clearJobTimeout st jobId).nextSubId = st.nextSubId
    ∧ (clearJobTimeout st jobId).jobs.map (fun p => p.1) = st.jobs.map (fun p => p.1)
    ∧ (clearJobTimeout st jobId).jobs.map (fun p => p.2.subId)
        = st.jobs.map (fun p => p.2.subId) := by
  unfold clearJobTimeout
  split
  · exact ⟨(updateJob_fields st jobId _).1, (updateJob_fields st jobId _).2.1,
      (updateJob_fields st jobId _).2.2.1, (updateJob_fields st jobId _).2.2.2.1,
      (updateJob_fields st jobId _).2.2.2.2.1, (updateJob_fields st jobId _).2.2.2.2.2.1,
      (updateJob_fields st jobId _).2.2.2.2.2.2.1, (updateJob_fields st jobId _).2.2.2.2.2.2.2,
      updateJob_keys st jobId _, updateJob_subIds st jobId _ (fun j => rfl)⟩
  · exact ⟨rfl, rfl, rfl, rfl, rfl, rfl, rfl, rfl, rfl, rfl⟩

/-- Helper: `processQueueAux` never touches the settle or removal logs
nor the job counter floor, and only appends to the start order. -/
theorem processQueueAux_logs :
    ∀ (fuel : Nat) (st : PoolState),
      (processQueueAux fuel st).settles = st.settles
      ∧ (processQueueAux fuel st).removals = st.removals
      ∧ st.nextJobId ≤ (processQueueAux fuel st).nextJobId
      ∧ (∀ s ∈ st.startedOrder, s ∈ (processQueueAux fuel st).startedOrder) := by
  intro fuel
  induction fuel with
  | zero => intro st; exact ⟨rfl, rfl, le_refl _, fun s hs => hs⟩
  | succ fuel ih =>
      intro st
      unfold processQueueAux
      split
      · cases hq : st.queue with
        | nil => exact ⟨rfl, rfl, le_refl _, fun s hs => hs⟩
        | cons q rest =>
            rcases ih (startJob { st with queue := rest } q) with ⟨h1, h2, h3, h4⟩
            refine ⟨h1, h2, le_trans ?_ h3, fun s hs => h4 s ?_⟩
            · exact Nat.le_succ _
            · exact List.mem_append_left _ hs
      · exact ⟨rfl, rfl, le_refl _, fun s hs => hs⟩

/-- Helper: a job id below the fresh-id floor that is not active stays
out of the map under `processQueueAux`. -/
theorem processQueueAux_not_active :
    ∀ (fuel : Nat) (st : PoolState) (j : Nat),
      j ∉ st.active → j < st.nextJobId →
      j ∉ (processQueueAux fuel st).active := by
  intro fuel
  induction fuel with
  | zero => intro st j h1 _; exact h1
  | succ fuel ih =>
      intro st j h1 h2
      unfold processQueueAux
      split
      · cases hq : st.queue with
        | nil => exact h1
        | cons q rest =>
            apply ih
            · intro hmem
              rcases List.mem_append.mp hmem with h | h
              · exact h1 h
              · rw [List.mem_singleton] at h
                have he : ({ st with queue := rest } : PoolState).nextJobId
                    = st.nextJobId := rfl
                rw [he] at h
                omega
            · exact Nat.lt_succ_of_lt h2
      · exact h1

/-- Helper: when a slot is free, `processQueue` starts the queue head. -/
theorem processQueue_starts_head (st : PoolState) (q : QueuedTask)
    (rest : List QueuedTask) (hq : st.queue = q :: rest)
    (hlt : st.active.length < st.maxWorkers) :
    q.subId ∈ (processQueue st).startedOrder := by
  unfold processQueue
  rw [hq]
  show q.subId ∈ (processQueueAux (rest.length + 1) st).startedOrder
  unfold processQueueAux
  rw [if_pos hlt, hq]
  have hmem : q.subId ∈ (startJob { st with queue := rest } q).startedOrder :=
    List.mem_append_right _ (List.mem_singleton.mpr rfl)
  exact (processQueueAux_logs rest.length _).2.2.2 _ hmem

/-- Helper: `processQueue` versions of the log lemmas. -/
theorem processQueue_logs (st : PoolState) :
    (processQueue st).settles = st.settles
    ∧ (processQueue st).removals = st.removals
    ∧ st.nextJobId ≤ (processQueue st).nextJobId
    ∧ (∀ s ∈ st.startedOrder, s ∈ (processQueue st).startedOrder) :=
  processQueueAux_logs st.queue.length st

/-- Helper: `processQueue` keeps a fresh, inactive job id out of the
map. -/
theorem processQueue_not_active (st : PoolState) (j : Nat)
    (h1 : j ∉ st.active) (h2 : j < st.nextJobId) :
    j ∉ (processQueue st).active :=
  processQueueAux_not_active st.queue.length st j h1 h2

/-- Helper: removing a present element by key strictly shrinks a list. -/
theorem length_filter_ne_lt (l : List Nat) (a : Nat) (ha : a ∈ l) :
    (l.filter (fun j => !(j == a))).length < l.length := by
  induction l with
  | nil => cases ha
  | cons x xs ih =>
      rw [List.filter_cons]
      by_cases hx : x = a
      · subst hx
        simp only [beq_self_eq_true, Bool.not_true, Bool.false_eq_true, if_false]
        have := List.length_filter_le (fun j => !(j == x)) xs
        simp only [List.length_cons]
        omega
      · have hb : (!(x == a)) = true := by simp [hx]
        rw [if_pos hb]
        rcases List.mem_cons.mp ha with h | h
        · exact absurd h.symm hx
        · simp only [List.length_cons]
          exact Nat.succ_lt_succ (ih h)

/-- Helper: what `finishJob` does to a job currently in the map: the
settle log is untouched, the removal is logged once, the job leaves the
map for good, and (capacity permitting) the queue head is started. -/
theorem finishJob_facts (st : PoolState) (jobId : Nat)
    (hact : jobId ∈ st.active) (hfresh : jobId < st.nextJobId) :
    (finishJob st jobId).settles = st.settles
    ∧ (finishJob st jobId).removals = st.removals ++ [jobId]
    ∧ jobId ∉ (finishJob st jobId).active
    ∧ (st.active.length ≤ st.maxWorkers →
        ∀ q rest, st.queue = q :: rest →
          q.subId ∈ (finishJob st jobId).startedOrder) := by
  have hc : st.active.contains jobId = true := List.elem_eq_true_of_mem hact
  unfold finishJob
  simp only [hc, if_true]
  rcases clearJobTimeout_fields st jobId with
    ⟨hA, hQ, hS, hR, hO, hM, hJ, _, _, _⟩
  refine ⟨?_, ?_, ?_, ?_⟩
  · rw [(processQueue_logs _).1]
    exact hS
  · rw [(processQueue_logs _).2.1]
    rw [hR]
  · apply processQueue_not_active
    · intro hmem
      have h2 := List.mem_filter.mp hmem
      simp at h2
    · show jobId < (clearJobTimeout st jobId).nextJobId
      rw [hJ]
      exact hfresh
  · intro hcap q rest hq
    have hlt : ((clearJobTimeout st jobId).active.filter
        (fun j => !(j == jobId))).length < st.maxWorkers := by
      rw [hA]
      have := length_filter_ne_lt st.active jobId hact
      omega
    have := processQueue_starts_head
      { clearJobTimeout st jobId with
        active := (clearJobTimeout st jobId).active.filter (fun j => !(j == jobId)),
        removals := (clearJobTimeout st jobId).removals ++ [jobId] }
      q rest (by
        show (clearJobTimeout st jobId).queue = q :: rest
        rw [hQ, hq]) (by
        show ((clearJobTimeout st jobId).active.filter
            (fun j => !(j == jobId))).length < (clearJobTimeout st jobId).maxWorkers
        rw [hM]
        exact hlt)
    exact this

/-- C6: firing the timeout of an active, uncompleted job with an armed
timer rejects its submission with a timeout error, removes the job from
the active map (logging the removal exactly once), and — when there is
a queued submission — starts the queue head. -/
theorem worker_timeout_rejects_and_releases
    (st : PoolState) (jobId : Nat) (job : WorkerJob)
    (q : QueuedTask) (rest : List QueuedTask)
    (hlook : lookupJob st jobId = some job)
    (harm : job.timerArmed = true)
    (hcomp : job.completed = false)
    (hact : jobId ∈ st.active)
    (hfresh : jobId < st.nextJobId)
    (hcap : st.active.length ≤ st.maxWorkers)
    (hqueue : st.queue = q :: rest) :
    (onTimeout st jobId).settles
        = st.settles ++ [(job.subId, SettleOutcome.rejectedTimeout)]
    ∧ (onTimeout st jobId).removals = st.removals ++ [jobId]
    ∧ jobId ∉ (onTimeout st jobId).active
    ∧ q.subId ∈ (onTimeout st jobId).startedOrder := by
  have hon : onTimeout st jobId
      = finishJob (settleSub (updateJob st jobId
          (fun j => { j with completed := true }))
          job.subId SettleOutcome.rejectedTimeout) jobId := by
    unfold onTimeout
    rw [hlook]
    simp [harm, hcomp]
  set s2 := settleSub (updateJob st jobId (fun j => { j with completed := true }))
    job.subId SettleOutcome.rejectedTimeout with hs2
  have ha2 : s2.active = st.active := rfl
  have hq2 : s2.queue = st.queue := rfl
  have hset2 : s2.settles = st.settles ++ [(job.subId, SettleOutcome.rejectedTimeout)] := rfl
  have hr2 : s2.removals = st.removals := rfl
  have hn2 : s2.nextJobId = st.nextJobId := rfl
  have hm2 : s2.maxWorkers = st.maxWorkers := rfl
  rcases finishJob_facts s2 jobId (by rw [ha2]; exact hact) (by rw [hn2]; exact hfresh)
    with ⟨f1, f2, f3, f4⟩
  rw [hon]
  refine ⟨?_, ?_, f3, ?_⟩
  · rw [f1, hset2]
  · rw [f2, hr2]
  · exact f4 (by rw [ha2, hm2]; exact hcap) q rest (by rw [hq2]; exact hqueue)

/-- Helper: appending a strictly larger element keeps a list strictly
sorted. -/
theorem sorted_append_singleton (l : List Nat) (x : Nat)
    (hs : List.Sorted (· < ·) l) (hx : ∀ s ∈ l, s < x) :
    List.Sorted (· < ·) (l ++ [x]) := by
  unfold List.Sorted at *
  rw [List.pairwise_append]
  refine ⟨hs, List.pairwise_singleton _ x, ?_⟩
  intro a ha b hb
  rw [List.mem_singleton] at hb
  rw [hb]
  exact hx a ha

/-- Helper: appending a fresh element keeps a list duplicate-free. -/
theorem nodup_append_singleton {α : Type} (l : List α) (x : α)
    (h : l.Nodup) (hx : x ∉ l) : (l ++ [x]).Nodup := by
  rw [List.nodup_append]
  refine ⟨h, List.nodup_singleton x, ?_⟩
  intro a ha hb
  rw [List.mem_singleton] at hb
  rw [hb] at ha
  exact hx ha

/-- Helper: a successful map lookup names an entry of the job list with
the looked-up key. -/
theorem lookupJob_mem (st : PoolState) (jobId : Nat) (job : WorkerJob)
    (hlook : lookupJob st jobId = some job) :
    ∃ p ∈ st.jobs, p.1 = jobId ∧ p.2 = job := by
  unfold lookupJob at hlook
  cases hf : st.jobs.find? (fun p => p.1 == jobId) with
  | none => rw [hf] at hlook; simp at hlook
  | some pr =>
      rw [hf] at hlook
      simp only [Option.map] at hlook
      injection hlook with hlook
      have hmem := List.mem_of_find?_eq_some hf
      have hkey := List.find?_some hf
      exact ⟨pr, hmem, by simpa using hkey, hlook⟩

/-- Helper: `find?` by key through the `updateJob` map. -/
theorem find?_updateJob (jobs : List (Nat × WorkerJob)) (jobId : Nat)
    (f : WorkerJob → WorkerJob) :
    (jobs.map (fun p => if p.1 == jobId then (p.1, f p.2) else p)).find?
        (fun p => p.1 == jobId)
      = (jobs.find? (fun p => p.1 == jobId)).map (fun p => (p.1, f p.2)) := by
  induction jobs with
  | nil => rfl
  | cons p ps ih =>
      cases h : p.1 == jobId with
      | true =>
          rw [List.map_cons, if_pos h, List.find?_cons, List.find?_cons]
          simp only [h]
          rfl
      | false =>
          rw [List.map_cons, if_neg (by simp [h]), List.find?_cons, List.find?_cons]
          simp only [h]
          exact ih

/-- Helper: looking a job up after `updateJob` returns the updated
record. -/
theorem lookupJob_updateJob (st : PoolState) (jobId : Nat)
    (f : WorkerJob → WorkerJob) (job : WorkerJob)
    (hlook : lookupJob st jobId = some job) :
    lookupJob (updateJob st jobId f) jobId = some (f job) := by
  unfold lookupJob updateJob at *
  rw [find?_updateJob]
  cases hf : st.jobs.find? (fun p => p.1 == jobId) with
  | none => rw [hf] at hlook; simp at hlook
  | some pr =>
      rw [hf] at hlook
      simp only [Option.map] at hlook ⊢
      injection hlook with hlook
      rw [hlook]

/-- Helper: starting the queue head preserves the pool invariant. -/
theorem poolInv_start_step (st : PoolState) (q : QueuedTask)
    (rest : List QueuedTask) (hinv : PoolInv st) (hq : st.queue = q :: rest)
    (hlt : st.active.length < st.maxWorkers) :
    PoolInv (startJob { st with queue := rest } q) := by
  have hqmem : q ∈ st.queue := by rw [hq]; exact List.mem_cons_self q rest
  have hqrest : ∀ q' ∈ rest, q.subId < q'.subId := by
    have hs := hinv.queueSorted
    rw [hq] at hs
    simp only [List.map_cons] at hs
    rw [List.sorted_cons] at hs
    intro q' hq'
    exact hs.1 _ (List.mem_map_of_mem _ hq')
  have hrest_sub : ∀ q' ∈ rest, q' ∈ st.queue := by
    intro q' h
    rw [hq]
    exact List.mem_cons_of_mem q h
  have hkeysfresh : st.nextJobId ∉ st.jobs.map (fun p => p.1) := by
    intro hmem
    rcases List.mem_map.mp hmem with ⟨p, hp, he⟩
    have := hinv.jobIdLt p hp
    omega
  refine
    { oneLe := hinv.oneLe
      capa := ?_
      queueSorted := ?_
      startedSorted := ?_
      startedBeforeQueued := ?_
      queuedLt := ?_
      startedLt := ?_
      jobIdLt := ?_
      jobKeysNodup := ?_
      activeNodup := ?_
      activeSub := ?_
      startedEq := ?_
      settleNodup := hinv.settleNodup
      settleCompleted := ?_
      settleStarted := ?_
      removalNodup := hinv.removalNodup
      removalNotActive := ?_
      removalKeys := ?_ }
  · show (st.active ++ [st.nextJobId]).length ≤ st.maxWorkers
    rw [List.length_append]
    simp only [List.length_cons, List.length_nil]
    omega
  · show List.Sorted (· < ·) (rest.map (fun q => q.subId))
    have hs := hinv.queueSorted
    rw [hq] at hs
    simp only [List.map_cons] at hs
    exact (List.sorted_cons.mp hs).2
  · show List.Sorted (· < ·) (st.startedOrder ++ [q.subId])
    exact sorted_append_singleton _ _ hinv.startedSorted
      (fun s hs => hinv.startedBeforeQueued s hs q hqmem)
  · show ∀ s ∈ st.startedOrder ++ [q.subId], ∀ q' ∈ rest, s < q'.subId
    intro s hs q' hq'
    rcases List.mem_append.mp hs with h | h
    · exact hinv.startedBeforeQueued s h q' (hrest_sub q' hq')
    · rw [List.mem_singleton] at h
      rw [h]
      exact hqrest q' hq'
  · show ∀ q' ∈ rest, q'.subId < st.nextSubId
    intro q' hq'
    exact hinv.queuedLt q' (hrest_sub q' hq')
  · show ∀ s ∈ st.startedOrder ++ [q.subId], s < st.nextSubId
    intro s hs
    rcases List.mem_append.mp hs with h | h
    · exact hinv.startedLt s h
    · rw [List.mem_singleton] at h
      rw [h]
      exact hinv.queuedLt q hqmem
  · show ∀ p ∈ st.jobs ++ [(st.nextJobId, ({ subId := q.subId, completed := false, timerArmed := 0 < q.timeout } : WorkerJob))], p.1 < st.nextJobId + 1
    intro p hp
    rcases List.mem_append.mp hp with h | h
    · have := hinv.jobIdLt p h
      omega
    · rw [List.mem_singleton] at h
      rw [h]
      exact Nat.lt_succ_self _
  · show ((st.jobs ++ [(st.nextJobId, ({ subId := q.subId, completed := false, timerArmed := 0 < q.timeout } : WorkerJob))]).map (fun p => p.1)).Nodup
    rw [List.map_append]
    exact nodup_append_singleton _ _ hinv.jobKeysNodup hkeysfresh
  · show (st.active ++ [st.nextJobId]).Nodup
    refine nodup_append_singleton _ _ hinv.activeNodup ?_
    intro hmem
    exact hkeysfresh (hinv.activeSub _ hmem)
  · show ∀ j ∈ st.active ++ [st.nextJobId],
        j ∈ (st.jobs ++ [(st.nextJobId, ({ subId := q.subId, completed := false, timerArmed := 0 < q.timeout } : WorkerJob))]).map (fun p => p.1)
    intro j hj
    rw [List.map_append]
    rcases List.mem_append.mp hj with h | h
    · exact List.mem_append_left _ (hinv.activeSub j h)
    · exact List.mem_append_right _ h
  · show st.startedOrder ++ [q.subId]
        = (st.jobs ++ [(st.nextJobId, ({ subId := q.subId, completed := false, timerArmed := 0 < q.timeout } : WorkerJob))]).map (fun p => p.2.subId)
    rw [List.map_append, hinv.startedEq]
    rfl
  · show ∀ p ∈ st.settles, ∀ pr ∈ st.jobs ++ [(st.nextJobId, ({ subId := q.subId, completed := false, timerArmed := 0 < q.timeout } : WorkerJob))],
        pr.2.subId = p.1 → pr.2.completed = true
    intro p hp pr hpr he
    rcases List.mem_append.mp hpr with h | h
    · exact hinv.settleCompleted p hp pr h he
    · rw [List.mem_singleton] at h
      rw [h] at he
      simp only at he
      have h1 := hinv.settleStarted p hp
      have h2 := hinv.startedBeforeQueued p.1 h1 q hqmem
      omega
  · show ∀ p ∈ st.settles, p.1 ∈ st.startedOrder ++ [q.subId]
    intro p hp
    exact List.mem_append_left _ (hinv.settleStarted p hp)
  · show ∀ j ∈ st.removals, j ∉ st.active ++ [st.nextJobId]
    intro j hj hmem
    rcases List.mem_append.mp hmem with h | h
    · exact hinv.removalNotActive j hj h
    · rw [List.mem_singleton] at h
      rw [h] at hj
      exact hkeysfresh (hinv.removalKeys _ hj)
  · show ∀ j ∈ st.removals, j ∈ (st.jobs ++ [(st.nextJobId, ({ subId := q.subId, completed := false, timerArmed := 0 < q.timeout } : WorkerJob))]).map (fun p => p.1)
    intro j hj
    rw [List.map_append]
    exact List.mem_append_left _ (hinv.removalKeys j hj)

/-- Helper: the queue-draining loop preserves the invariant. -/
theorem poolInv_processQueueAux :
    ∀ (fuel : Nat) (st : PoolState), PoolInv st → PoolInv (processQueueAux fuel st) := by
  intro fuel
  induction fuel with
  | zero => intro st h; exact h
  | succ fuel ih =>
      intro st h
      unfold processQueueAux
      split
      · cases hq : st.queue with
        | nil => exact h
        | cons q rest => exact ih _ (poolInv_start_step st q rest h hq (by assumption))
      · exact h

/-- Helper: `processQueue` preserves the invariant. -/
theorem poolInv_processQueue (st : PoolState) (h : PoolInv st) :
    PoolInv (processQueue st) :=
  poolInv_processQueueAux st.queue.length st h

/-- Helper: `executeTask` preserves the invariant. -/
theorem poolInv_executeTask (st : PoolState) (t : Nat) (hinv : PoolInv st) :
    PoolInv (executeTask st t) := by
  apply poolInv_processQueue
  refine
    { oneLe := hinv.oneLe
      capa := hinv.capa
      queueSorted := ?_
      startedSorted := hinv.startedSorted
      startedBeforeQueued := ?_
      queuedLt := ?_
      startedLt := ?_
      jobIdLt := hinv.jobIdLt
      jobKeysNodup := hinv.jobKeysNodup
      activeNodup := hinv.activeNodup
      activeSub := hinv.activeSub
      startedEq := hinv.startedEq
      settleNodup := hinv.settleNodup
      settleCompleted := hinv.settleCompleted
      settleStarted := hinv.settleStarted
      removalNodup := hinv.removalNodup
      removalNotActive := hinv.removalNotActive
      removalKeys := hinv.removalKeys }
  · show List.Sorted (· < ·)
      ((st.queue ++ [({ subId := st.nextSubId, timeout := t } : QueuedTask)]).map (fun q => q.subId))
    rw [List.map_append]
    refine sorted_append_singleton _ _ hinv.queueSorted ?_
    intro x hx
    rcases List.mem_map.mp hx with ⟨q, hq, he⟩
    rw [← he]
    exact hinv.queuedLt q hq
  · show ∀ s ∈ st.startedOrder,
      ∀ q ∈ st.queue ++ [({ subId := st.nextSubId, timeout := t } : QueuedTask)], s < q.subId
    intro s hs q hq
    rcases List.mem_append.mp hq with h | h
    · exact hinv.startedBeforeQueued s hs q h
    · rw [List.mem_singleton] at h
      rw [h]
      exact hinv.startedLt s hs
  · show ∀ q ∈ st.queue ++ [({ subId := st.nextSubId, timeout := t } : QueuedTask)],
      q.subId < st.nextSubId + 1
    intro q hq
    rcases List.mem_append.mp hq with h | h
    · have := hinv.queuedLt q h
      omega
    · rw [List.mem_singleton] at h
      rw [h]
      exact Nat.lt_succ_self _
  · show ∀ s ∈ st.startedOrder, s < st.nextSubId + 1
    intro s hs
    have := hinv.startedLt s hs
    omega

/-- Helper: a flag update on a captured job preserves the invariant
when the update keeps the submission id and never un-completes a job. -/
theorem poolInv_updateJob (st : PoolState) (jobId : Nat)
    (f : WorkerJob → WorkerJob) (hinv : PoolInv st)
    (hsub : ∀ j, (f j).subId = j.subId)
    (hcm : ∀ j, j.completed = true → (f j).completed = true) :
    PoolInv (updateJob st jobId f) := by
  rcases updateJob_fields st jobId f with ⟨hA, hQ, hS, hR, hO, hM, hJ, hN⟩
  refine
    { oneLe := by rw [hM]; exact hinv.oneLe
      capa := by rw [hA, hM]; exact hinv.capa
      queueSorted := by rw [hQ]; exact hinv.queueSorted
      startedSorted := by rw [hO]; exact hinv.startedSorted
      startedBeforeQueued := by rw [hO, hQ]; exact hinv.startedBeforeQueued
      queuedLt := by rw [hQ, hN]; exact hinv.queuedLt
      startedLt := by rw [hO, hN]; exact hinv.startedLt
      jobIdLt := ?_
      jobKeysNodup := by rw [updateJob_keys]; exact hinv.jobKeysNodup
      activeNodup := by rw [hA]; exact hinv.activeNodup
      activeSub := by rw [hA, updateJob_keys]; exact hinv.activeSub
      startedEq := by rw [hO, updateJob_subIds st jobId f hsub]; exact hinv.startedEq
      settleNodup := by rw [hS]; exact hinv.settleNodup
      settleCompleted := ?_
      settleStarted := by rw [hS, hO]; exact hinv.settleStarted
      removalNodup := by rw [hR]; exact hinv.removalNodup
      removalNotActive := by rw [hR, hA]; exact hinv.removalNotActive
      removalKeys := by rw [hR, updateJob_keys]; exact hinv.removalKeys }
  · intro p hp
    rw [hJ]
    rcases updateJob_mem st jobId f p hp with ⟨p0, hp0, he⟩
    have := hinv.jobIdLt p0 hp0
    rw [he]
    split <;> exact this
  · intro p hp pr hpr he
    rw [hS] at hp
    rcases updateJob_mem st jobId f pr hpr with ⟨p0, hp0, he0⟩
    by_cases hk : (p0.1 == jobId) = true
    · rw [he0, if_pos hk] at he ⊢
      simp only at he ⊢
      rw [hsub p0.2] at he
      exact hcm p0.2 (hinv.settleCompleted p hp p0 hp0 he)
    · rw [Bool.not_eq_true] at hk
      rw [he0, if_neg (by simp [hk])] at he ⊢
      exact hinv.settleCompleted p hp p0 hp0 he

/-- Helper: `clearJobTimeout` preserves the invariant. -/
theorem poolInv_clearJobTimeout (st : PoolState) (jobId : Nat)
    (hinv : PoolInv st) : PoolInv (clearJobTimeout st jobId) := by
  unfold clearJobTimeout
  split
  · exact poolInv_updateJob st jobId _ hinv (fun j => rfl) (fun j h => h)
  · exact hinv

/-- Helper: deleting an active map entry (logging the removal)
preserves the invariant. -/
theorem poolInv_remove (st : PoolState) (jobId : Nat) (hinv : PoolInv st)
    (hact : jobId ∈ st.active) :
    PoolInv { st with active := st.active.filter (fun j => !(j == jobId)),
                      removals := st.removals ++ [jobId] } := by
  have hsub : ∀ j ∈ st.active.filter (fun j => !(j == jobId)), j ∈ st.active :=
    fun j hj => List.mem_of_mem_filter hj
  refine
    { oneLe := hinv.oneLe
      capa := le_trans (List.length_filter_le _ _) hinv.capa
      queueSorted := hinv.queueSorted
      startedSorted := hinv.startedSorted
      startedBeforeQueued := hinv.startedBeforeQueued
      queuedLt := hinv.queuedLt
      startedLt := hinv.startedLt
      jobIdLt := hinv.jobIdLt
      jobKeysNodup := hinv.jobKeysNodup
      activeNodup := List.Nodup.filter _ hinv.activeNodup
      activeSub := fun j hj => hinv.activeSub j (hsub j hj)
      startedEq := hinv.startedEq
      settleNodup := hinv.settleNodup
      settleCompleted := hinv.settleCompleted
      settleStarted := hinv.settleStarted
      removalNodup := ?_
      removalNotActive := ?_
      removalKeys := ?_ }
  · refine nodup_append_singleton _ _ hinv.removalNodup ?_
    intro hmem
    exact hinv.removalNotActive jobId hmem hact
  · intro j hj hmem
    rcases List.mem_append.mp hj with h | h
    · exact hinv.removalNotActive j h (hsub j hmem)
    · rw [List.mem_singleton] at h
      rw [h] at hmem
      have h2 := (List.mem_filter.mp hmem).2
      simp at h2
  · intro j hj
    rcases List.mem_append.mp hj with h | h
    · exact hinv.removalKeys j h
    · rw [List.mem_singleton] at h
      rw [h]
      exact hinv.activeSub jobId hact

/-- Helper: `finishJob` preserves the invariant. -/
theorem poolInv_finishJob (st : PoolState) (jobId : Nat) (hinv : PoolInv st) :
    PoolInv (finishJob st jobId) := by
  unfold finishJob
  split
  · apply poolInv_processQueue
    have hact : jobId ∈ (clearJobTimeout st jobId).active := by
      rw [(clearJobTimeout_fields st jobId).1]
      exact List.mem_of_elem_eq_true (by assumption)
    exact poolInv_remove _ jobId (poolInv_clearJobTimeout st jobId hinv) hact
  · exact hinv

/-- Helper: recording a settlement preserves the invariant when a job
with the settled submission id is completed and the id was never
settled before. -/
theorem poolInv_settleSub (st : PoolState) (s : Nat) (o : SettleOutcome)
    (hinv : PoolInv st)
    (hex : ∃ p ∈ st.jobs, p.2.subId = s ∧ p.2.completed = true)
    (hnot : ∀ p ∈ st.settles, p.1 ≠ s) :
    PoolInv (settleSub st s o) := by
  have hsubNodup : (st.jobs.map (fun p => p.2.subId)).Nodup := by
    rw [← hinv.startedEq]
    exact List.Pairwise.imp (fun h => Nat.ne_of_lt h) hinv.startedSorted
  rcases hex with ⟨pw, hpw, hpws, hpwc⟩
  refine
    { oneLe := hinv.oneLe
      capa := hinv.capa
      queueSorted := hinv.queueSorted
      startedSorted := hinv.startedSorted
      startedBeforeQueued := hinv.startedBeforeQueued
      queuedLt := hinv.queuedLt
      startedLt := hinv.startedLt
      jobIdLt := hinv.jobIdLt
      jobKeysNodup := hinv.jobKeysNodup
      activeNodup := hinv.activeNodup
      activeSub := hinv.activeSub
      startedEq := hinv.startedEq
      settleNodup := ?_
      settleCompleted := ?_
      settleStarted := ?_
      removalNodup := hinv.removalNodup
      removalNotActive := hinv.removalNotActive
      removalKeys := hinv.removalKeys }
  · show ((st.settles ++ [(s, o)]).map (fun p => p.1)).Nodup
    rw [List.map_append]
    refine nodup_append_singleton _ _ hinv.settleNodup ?_
    intro hmem
    rcases List.mem_map.mp hmem with ⟨p, hp, he⟩
    exact hnot p hp he
  · show ∀ p ∈ st.settles ++ [(s, o)], ∀ pr ∈ st.jobs,
      pr.2.subId = p.1 → pr.2.completed = true
    intro p hp pr hpr he
    rcases List.mem_append.mp hp with h | h
    · exact hinv.settleCompleted p h pr hpr he
    · rw [List.mem_singleton] at h
      rw [h] at he
      simp only at he
      have : pr = pw :=
        List.inj_on_of_nodup_map hsubNodup hpr hpw (by rw [he, hpws])
      rw [this]
      exact hpwc
  · show ∀ p ∈ st.settles ++ [(s, o)], p.1 ∈ st.startedOrder
    intro p hp
    rcases List.mem_append.mp hp with h | h
    · exact hinv.settleStarted p h
    · rw [List.mem_singleton] at h
      rw [h]
      simp only
      rw [hinv.startedEq, ← hpws]
      exact List.mem_map_of_mem _ hpw

/-- Helper: after completing a captured job (and possibly clearing its
timer) a completed entry with its submission id is in the job list. -/
theorem completed_entry_after (st : PoolState) (jobId : Nat) (job : WorkerJob)
    (hlook : lookupJob st jobId = some job) :
    ∃ p ∈ (clearJobTimeout
        (updateJob st jobId (fun j => { j with completed := true })) jobId).jobs,
      p.2.subId = job.subId ∧ p.2.completed = true := by
  have h1 := lookupJob_updateJob st jobId
    (fun j => { j with completed := true }) job hlook
  unfold clearJobTimeout
  split
  · have h2 := lookupJob_updateJob _ jobId
      (fun j => { j with timerArmed := false }) _ h1
    rcases lookupJob_mem _ _ _ h2 with ⟨p, hp, _, he2⟩
    exact ⟨p, hp, by rw [he2], by rw [he2]⟩
  · rcases lookupJob_mem _ _ _ h1 with ⟨p, hp, _, he2⟩
    exact ⟨p, hp, by rw [he2], by rw [he2]⟩

/-- Helper: the submission of an uncompleted job was never settled. -/
theorem notSettled_of_uncompleted (st : PoolState) (jobId : Nat)
    (job : WorkerJob) (hinv : PoolInv st)
    (hlook : lookupJob st jobId = some job) (hcomp : job.completed = false) :
    ∀ p ∈ st.settles, p.1 ≠ job.subId := by
  intro p hp he
  rcases lookupJob_mem st jobId job hlook with ⟨pr, hpr, _, he2⟩
  have h2 := hinv.settleCompleted p hp pr hpr (by rw [he2, he])
  rw [he2, hcomp] at h2
  exact Bool.false_ne_true h2

/-- Helper: the completed entry without the timer clear (the timeout
handler's path). -/
theorem completed_entry_after_noclear (st : PoolState) (jobId : Nat)
    (job : WorkerJob) (hlook : lookupJob st jobId = some job) :
    ∃ p ∈ (updateJob st jobId (fun j => { j with completed := true })).jobs,
      p.2.subId = job.subId ∧ p.2.completed = true := by
  have h1 := lookupJob_updateJob st jobId
    (fun j => { j with completed := true }) job hlook
  rcases lookupJob_mem _ _ _ h1 with ⟨p, hp, _, he2⟩
  exact ⟨p, hp, by rw [he2], by rw [he2]⟩

/-- Helper: the `message` handler preserves the invariant. -/
theorem poolInv_onMessage (st : PoolState) (jobId : Nat) (success : Bool)
    (hinv : PoolInv st) : PoolInv (onMessage st jobId success) := by
  unfold onMessage
  cases hlook : lookupJob st jobId with
  | none => exact hinv
  | some job =>
      dsimp only
      by_cases hcomp : job.completed = true
      · rw [if_pos hcomp]
        exact hinv
      · rw [if_neg hcomp]
        rw [Bool.not_eq_true] at hcomp
        apply poolInv_finishJob
        apply poolInv_settleSub
        · exact poolInv_clearJobTimeout _ _
            (poolInv_updateJob st jobId _ hinv (fun j => rfl) (fun j _ => rfl))
        · exact completed_entry_after st jobId job hlook
        · have he : (clearJobTimeout
              (updateJob st jobId (fun j => { j with completed := true })) jobId).settles
              = st.settles := by
            rw [(clearJobTimeout_fields _ _).2.2.1]
            exact (updateJob_fields _ _ _).2.2.1
          rw [he]
          exact notSettled_of_uncompleted st jobId job hinv hlook hcomp

/-- Helper: the `error` handler preserves the invariant. -/
theorem poolInv_onError (st : PoolState) (jobId : Nat) (hinv : PoolInv st) :
    PoolInv (onError st jobId) := by
  unfold onError
  cases hlook : lookupJob st jobId with
  | none => exact hinv
  | some job =>
      dsimp only
      by_cases hcomp : job.completed = true
      · rw [if_pos hcomp]
        exact hinv
      · rw [if_neg hcomp]
        rw [Bool.not_eq_true] at hcomp
        apply poolInv_finishJob
        apply poolInv_settleSub
        · exact poolInv_clearJobTimeout _ _
            (poolInv_updateJob st jobId _ hinv (fun j => rfl) (fun j _ => rfl))
        · exact completed_entry_after st jobId job hlook
        · have he : (clearJobTimeout
              (updateJob st jobId (fun j => { j with completed := true })) jobId).settles
              = st.settles := by
            rw [(clearJobTimeout_fields _ _).2.2.1]
            exact (updateJob_fields _ _ _).2.2.1
          rw [he]
          exact notSettled_of_uncompleted st jobId job hinv hlook hcomp

/-- Helper: the `timeout` callback preserves the invariant. -/
theorem poolInv_onTimeout (st : PoolState) (jobId : Nat) (hinv : PoolInv st) :
    PoolInv (onTimeout st jobId) := by
  unfold onTimeout
  cases hlook : lookupJob st jobId with
  | none => exact hinv
  | some job =>
      dsimp only
      by_cases harm : job.timerArmed = true
      · by_cases hcomp : job.completed = true
        · simp [harm, hcomp]
          exact hinv
        · simp only [harm, Bool.not_true, Bool.false_eq_true, if_false,
            if_neg hcomp]
          rw [Bool.not_eq_true] at hcomp
          apply poolInv_finishJob
          apply poolInv_settleSub
          · exact poolInv_updateJob st jobId _ hinv (fun j => rfl) (fun j _ => rfl)
          · exact completed_entry_after_noclear st jobId job hlook
          · have he : (updateJob st jobId
                (fun j => { j with completed := true })).settles = st.settles :=
              (updateJob_fields _ _ _).2.2.1
            rw [he]
            exact notSettled_of_uncompleted st jobId job hinv hlook hcomp
      · rw [Bool.not_eq_true] at harm
        simp [harm]
        exact hinv

/-- Helper: the `exit` handler preserves the invariant. -/
theorem poolInv_onExit (st : PoolState) (jobId : Nat) (code : Int)
    (hinv : PoolInv st) : PoolInv (onExit st jobId code) := by
  unfold onExit
  split
  · exact hinv
  · apply poolInv_finishJob
    have hinv1 := poolInv_clearJobTimeout st jobId hinv
    cases hlook : lookupJob (clearJobTimeout st jobId) jobId with
    | none => exact hinv1
    | some job =>
        dsimp only
        by_cases hcomp : job.completed = true
        · simp [hcomp]
          exact hinv1
        · rw [Bool.not_eq_true] at hcomp
          simp only [hcomp, Bool.not_false, if_true]
          apply poolInv_settleSub
          · exact poolInv_updateJob _ jobId _ hinv1 (fun j => rfl) (fun j _ => rfl)
          · exact completed_entry_after_noclear _ jobId job hlook
          · have he : (updateJob (clearJobTimeout st jobId) jobId
                (fun j => { j with completed := true })).settles
                = (clearJobTimeout st jobId).settles :=
              (updateJob_fields _ _ _).2.2.1
            rw [he]
            exact notSettled_of_uncompleted _ jobId job hinv1 hlook hcomp

/-- Helper: one `cleanup` iteration preserves the invariant. -/
theorem poolInv_cleanupStep (st : PoolState) (jobId : Nat) (hinv : PoolInv st) :
    PoolInv (cleanupStep st jobId) := by
  unfold cleanupStep
  split
  · cases hlook : lookupJob st jobId with
    | none => exact hinv
    | some job =>
        dsimp only
        have hinv2 := poolInv_clearJobTimeout _ jobId
          (poolInv_updateJob st jobId
            (fun j => { j with completed := true }) hinv (fun j => rfl) (fun j _ => rfl))
        have hact2 : jobId ∈ (clearJobTimeout
            (updateJob st jobId (fun j => { j with completed := true })) jobId).active := by
          rw [(clearJobTimeout_fields _ _).1, (updateJob_fields _ _ _).1]
          exact List.mem_of_elem_eq_true (by assumption)
        exact poolInv_remove _ jobId hinv2 hact2
  · exact hinv

/-- Helper: the `cleanup` fold preserves the invariant. -/
theorem poolInv_cleanupFold :
    ∀ (ids : List Nat) (st : PoolState), PoolInv st →
      PoolInv (ids.foldl cleanupStep st) := by
  intro ids
  induction ids with
  | nil => intro st h; exact h
  | cons i rest ih => intro st h; exact ih _ (poolInv_cleanupStep st i h)

/-- Helper: `cleanup` preserves the invariant. -/
theorem poolInv_cleanup (st : PoolState) (hinv : PoolInv st) :
    PoolInv (cleanup st) := by
  unfold cleanup
  apply poolInv_cleanupFold
  exact
    { oneLe := hinv.oneLe
      capa := hinv.capa
      queueSorted := List.sorted_nil
      startedSorted := hinv.startedSorted
      startedBeforeQueued := by intro s _ q hq; cases hq
      queuedLt := by intro q hq; cases hq
      startedLt := hinv.startedLt
      jobIdLt := hinv.jobIdLt
      jobKeysNodup := hinv.jobKeysNodup
      activeNodup := hinv.activeNodup
      activeSub := hinv.activeSub
      startedEq := hinv.startedEq
      settleNodup := hinv.settleNodup
      settleCompleted := hinv.settleCompleted
      settleStarted := hinv.settleStarted
      removalNodup := hinv.removalNodup
      removalNotActive := hinv.removalNotActive
      removalKeys := hinv.removalKeys }

/-- Helper: every event preserves the invariant. -/
theorem poolInv_poolStep (st : PoolState) (e : PoolEvent) (hinv : PoolInv st) :
    PoolInv (poolStep st e) := by
  cases e with
  | submit t => exact poolInv_executeTask st t hinv
  | message j s => exact poolInv_onMessage st j s hinv
  | errorEvt j => exact poolInv_onError st j hinv
  | exitEvt j c => exact poolInv_onExit st j c hinv
  | timeoutFire j => exact poolInv_onTimeout st j hinv
  | cleanupCall => exact poolInv_cleanup st hinv

/-- Helper: the invariant holds for a fresh pool. -/
theorem poolInv_mkPool (mw : Int) : PoolInv (mkPool mw) := by
  have h1 : (1 : Int) ≤ max 1 mw := le_max_left 1 mw
  refine
    { oneLe := by show 1 ≤ (max 1 mw).toNat; omega
      capa := by show (0 : Nat) ≤ _; exact Nat.zero_le _
      queueSorted := List.sorted_nil
      startedSorted := List.sorted_nil
      startedBeforeQueued := by intro s hs; cases hs
      queuedLt := by intro q hq; cases hq
      startedLt := by intro s hs; cases hs
      jobIdLt := by intro p hp; cases hp
      jobKeysNodup := List.nodup_nil
      activeNodup := List.nodup_nil
      activeSub := by intro j hj; cases hj
      startedEq := rfl
      settleNodup := List.nodup_nil
      settleCompleted := by intro p hp; cases hp
      settleStarted := by intro p hp; cases hp
      removalNodup := List.nodup_nil
      removalNotActive := by intro j hj; cases hj
      removalKeys := by intro j hj; cases hj }

/-- Helper: the invariant holds in every reachable state. -/
theorem poolInv_runPool (mw : Int) (events : List PoolEvent) :
    PoolInv (runPool (mkPool mw) events) := by
  have aux : ∀ (evs : List PoolEvent) (st : PoolState), PoolInv st →
      PoolInv (runPool st evs) := by
    intro evs
    induction evs with
    | nil => intro st h; exact h
    | cons e rest ih => intro st h; exact ih _ (poolInv_poolStep st e h)
  exact aux events (mkPool mw) (poolInv_mkPool mw)

/-- C7: in every reachable pool state — under any order and mix of
submissions, worker messages, worker errors, worker exits, timer
expiries and cleanup calls — each submission's promise has been settled
at most once (its id occurs at most once in the settle log) and each
job has been deleted from the active-job map at most once (its id
occurs at most once in the removal log). -/
theorem pool_settles_and_removes_at_most_once (mw : Int) (events : List PoolEvent) :
    ((runPool (mkPool mw) events).settles.map (fun p => p.1)).Nodup
    ∧ (runPool (mkPool mw) events).removals.Nodup :=
  ⟨(poolInv_runPool mw events).settleNodup, (poolInv_runPool mw events).removalNodup⟩

/-- C8: in every reachable pool state the capacity is at least 1
(clamped at construction), the number of active jobs never exceeds the
capacity, and jobs are started in first-in-first-out submission order
(the start log is strictly increasing in submission ids, which are
assigned in submission order). -/
theorem pool_ceiling_and_fifo (mw : Int) (events : List PoolEvent) :
    1 ≤ (runPool (mkPool mw) events).maxWorkers
    ∧ (runPool (mkPool mw) events).active.length
        ≤ (runPool (mkPool mw) events).maxWorkers
    ∧ List.Sorted (· < ·) (runPool (mkPool mw) events).startedOrder :=
  ⟨(poolInv_runPool mw events).oneLe, (poolInv_runPool mw events).capa,
    (poolInv_runPool mw events).startedSorted⟩

/-- Helper: the queue-draining loop cannot resurrect a gone
submission. -/
theorem subGone_processQueueAux :
    ∀ (fuel : Nat) (st : PoolState) (s : Nat),
      SubGone st s → SubGone (processQueueAux fuel st) s := by
  intro fuel
  induction fuel with
  | zero => intro st s h; exact h
  | succ fuel ih =>
      intro st s h
      unfold processQueueAux
      split
      · cases hq : st.queue with
        | nil => exact h
        | cons q rest =>
            apply ih
            obtain ⟨h1, h2, h3, h4⟩ := h
            refine ⟨?_, ?_, h3, h4⟩
            · intro q' hq'
              exact h1 q' (by rw [hq]; exact List.mem_cons_of_mem q hq')
            · intro p hp
              rcases List.mem_append.mp hp with hm | hm
              · exact h2 p hm
              · rw [List.mem_singleton] at hm
                rw [hm]
                exact h1 q (by rw [hq]; exact List.mem_cons_self q rest)
      · exact h

/-- Helper: a new submission gets a fresh id, so a gone submission
stays gone. -/
theorem subGone_executeTask (st : PoolState) (t s : Nat)
    (h : SubGone st s) : SubGone (executeTask st t) s := by
  unfold executeTask processQueue
  apply subGone_processQueueAux
  obtain ⟨h1, h2, h3, h4⟩ := h
  refine ⟨?_, h2, h3, ?_⟩
  · intro q hq
    rcases List.mem_append.mp hq with hm | hm
    · exact h1 q hm
    · rw [List.mem_singleton] at hm
      rw [hm]
      show st.nextSubId ≠ s
      omega
  · show s < st.nextSubId + 1
    omega

/-- Helper: flag updates keep submission ids. -/
theorem subGone_updateJob (st : PoolState) (jobId : Nat)
    (f : WorkerJob → WorkerJob) (s : Nat)
    (hf : ∀ j, (f j).subId = j.subId) (h : SubGone st s) :
    SubGone (updateJob st jobId f) s := by
  obtain ⟨h1, h2, h3, h4⟩ := h
  refine ⟨h1, ?_, h3, h4⟩
  intro p hp
  rcases updateJob_mem st jobId f p hp with ⟨p0, hp0, he⟩
  rw [he]
  split
  · show (f p0.2).subId ≠ s
    rw [hf p0.2]
    exact h2 p0 hp0
  · exact h2 p0 hp0

/-- Helper: clearing a timer keeps submission ids. -/
theorem subGone_clearJobTimeout (st : PoolState) (jobId s : Nat)
    (h : SubGone st s) : SubGone (clearJobTimeout st jobId) s := by
  unfold clearJobTimeout
  split
  · exact subGone_updateJob st jobId _ s (fun j => rfl) h
  · exact h

/-- Helper: settling a different submission keeps a gone submission
unsettled. -/
theorem subGone_settleSub (st : PoolState) (sub : Nat) (o : SettleOutcome)
    (s : Nat) (h : SubGone st s) (hne : sub ≠ s) :
    SubGone (settleSub st sub o) s := by
  obtain ⟨h1, h2, h3, h4⟩ := h
  refine ⟨h1, h2, ?_, h4⟩
  intro p hp
  rcases List.mem_append.mp hp with hm | hm
  · exact h3 p hm
  · rw [List.mem_singleton] at hm
    rw [hm]
    exact hne

/-- Helper: `finishJob` keeps a gone submission gone. -/
theorem subGone_finishJob (st : PoolState) (jobId s : Nat)
    (h : SubGone st s) : SubGone (finishJob st jobId) s := by
  unfold finishJob
  split
  · apply subGone_processQueueAux
    exact subGone_clearJobTimeout st jobId s h
  · exact h

/-- Helper: the settled id of every handler belongs to a captured job,
so it differs from a gone submission's id. -/
theorem subGone_lookup_ne (st : PoolState) (jobId : Nat) (job : WorkerJob)
    (s : Nat) (h : SubGone st s)
    (hlook : lookupJob st jobId = some job) : job.subId ≠ s := by
  rcases lookupJob_mem st jobId job hlook with ⟨pr, hpr, _, he⟩
  rw [← he]
  exact h.2.1 pr hpr

/-- Helper: the `message` handler keeps a gone submission gone. -/
theorem subGone_onMessage (st : PoolState) (jobId : Nat) (success : Bool)
    (s : Nat) (h : SubGone st s) : SubGone (onMessage st jobId success) s := by
  unfold onMessage
  cases hlook : lookupJob st jobId with
  | none => exact h
  | some job =>
      dsimp only
      by_cases hcomp : job.completed = true
      · rw [if_pos hcomp]; exact h
      · rw [if_neg hcomp]
        apply subGone_finishJob
        apply subGone_settleSub
        · exact subGone_clearJobTimeout _ _ _
            (subGone_updateJob st jobId _ s (fun j => rfl) h)
        · exact subGone_lookup_ne st jobId job s h hlook

/-- Helper: the `error` handler keeps a gone submission gone. -/
theorem subGone_onError (st : PoolState) (jobId s : Nat)
    (h : SubGone st s) : SubGone (onError st jobId) s := by
  unfold onError
  cases hlook : lookupJob st jobId with
  | none => exact h
  | some job =>
      dsimp only
      by_cases hcomp : job.completed = true
      · rw [if_pos hcomp]; exact h
      · rw [if_neg hcomp]
        apply subGone_finishJob
        apply subGone_settleSub
        · exact subGone_clearJobTimeout _ _ _
            (subGone_updateJob st jobId _ s (fun j => rfl) h)
        · exact subGone_lookup_ne st jobId job s h hlook

/-- Helper: the `timeout` callback keeps a gone submission gone. -/
theorem subGone_onTimeout (st : PoolState) (jobId s : Nat)
    (h : SubGone st s) : SubGone (onTimeout st jobId) s := by
  unfold onTimeout
  cases hlook : lookupJob st jobId with
  | none => exact h
  | some job =>
      dsimp only
      by_cases harm : job.timerArmed = true
      · by_cases hcomp : job.completed = true
        · simp [harm, hcomp]; exact h
        · simp only [harm, Bool.not_true, Bool.false_eq_true, if_false,
            if_neg hcomp]
          apply subGone_finishJob
          apply subGone_settleSub
          · exact subGone_updateJob st jobId _ s (fun j => rfl) h
          · exact subGone_lookup_ne st jobId job s h hlook
      · rw [Bool.not_eq_true] at harm
        simp [harm]
        exact h

/-- Helper: the `exit` handler keeps a gone submission gone. -/
theorem subGone_onExit (st : PoolState) (jobId : Nat) (code : Int)
    (s : Nat) (h : SubGone st s) : SubGone (onExit st jobId code) s := by
  unfold onExit
  split
  · exact h
  · apply subGone_finishJob
    have h1 := subGone_clearJobTimeout st jobId s h
    cases hlook : lookupJob (clearJobTimeout st jobId) jobId with
    | none => exact h1
    | some job =>
        dsimp only
        by_cases hcomp : job.completed = true
        · simp [hcomp]; exact h1
        · rw [Bool.not_eq_true] at hcomp
          simp only [hcomp, Bool.not_false, if_true]
          apply subGone_settleSub
          · exact subGone_updateJob _ jobId _ s (fun j => rfl) h1
          · exact subGone_lookup_ne _ jobId job s h1 hlook

/-- Helper: one `cleanup` iteration keeps a gone submission gone. -/
theorem subGone_cleanupStep (st : PoolState) (jobId s : Nat)
    (h : SubGone st s) : SubGone (cleanupStep st jobId) s := by
  unfold cleanupStep
  split
  · cases hlook : lookupJob st jobId with
    | none => exact h
    | some job =>
        dsimp only
        exact subGone_clearJobTimeout _ _ _
          (subGone_updateJob st jobId _ s (fun j => rfl) h)
  · exact h

/-- Helper: `cleanup` keeps a gone submission gone. -/
theorem subGone_cleanup (st : PoolState) (s : Nat) (h : SubGone st s) :
    SubGone (cleanup st) s := by
  unfold cleanup
  have h0 : SubGone { st with queue := ([] : List QueuedTask) } s := by
    obtain ⟨_, h2, h3, h4⟩ := h
    exact ⟨(by intro q hq; cases hq), h2, h3, h4⟩
  have aux : ∀ (ids : List Nat) (st' : PoolState), SubGone st' s →
      SubGone (ids.foldl cleanupStep st') s := by
    intro ids
    induction ids with
    | nil => intro st' h'; exact h'
    | cons i rest ih => intro st' h'; exact ih _ (subGone_cleanupStep st' i s h')
  exact aux _ _ h0

/-- Helper: no event can settle a gone submission. -/
theorem subGone_poolStep (st : PoolState) (e : PoolEvent) (s : Nat)
    (h : SubGone st s) : SubGone (poolStep st e) s := by
  cases e with
  | submit t => exact subGone_executeTask st t s h
  | message j su => exact subGone_onMessage st j su s h
  | errorEvt j => exact subGone_onError st j s h
  | exitEvt j c => exact subGone_onExit st j c s h
  | timeoutFire j => exact subGone_onTimeout st j s h
  | cleanupCall => exact subGone_cleanup st s h

/-- Helper: no sequence of events can settle a gone submission. -/
theorem subGone_runPool (events : List PoolEvent) (st : PoolState) (s : Nat)
    (h : SubGone st s) : SubGone (runPool st events) s := by
  induction events generalizing st with
  | nil => exact h
  | cons e rest ih => exact ih _ (subGone_poolStep st e s h)

/-- C2: `cleanup()` does not drain the queue with a cancellation error:
in the capacity-1 scenario with job 0 running and submission 1 queued,
after `cleanup` no settlement for submission 1 exists (`this.queue = []`
simply discards the queued entry without calling its `reject`), and no
later event can ever settle it — the promise stays pending forever,
where the claim requires a rejection with a cancellation error.  The
idempotence half of the claim does hold: a second `cleanup` with no
intervening submissions changes nothing. -/
theorem cleanup_drops_queued_submission :
    (∀ p ∈ c2State.settles, p.1 ≠ 1)
    ∧ c2State.queue = []
    ∧ (∀ events : List PoolEvent, ∀ p ∈ (runPool c2State events).settles, p.1 ≠ 1)
    ∧ poolStep c2State PoolEvent.cleanupCall = c2State := by
  refine ⟨by decide, by decide, ?_, by decide⟩
  intro events p hp
  have hg : SubGone c2State 1 := by decide
  exact (subGone_runPool events c2State 1 hg).2.2.1 p hp

/-- C6 witness: in the concrete capacity-1 pool with job 0 running
under a 5 ms timeout and submission 1 queued, firing the timeout
rejects submission 0 with a timeout error, frees the slot once, and
starts submission 1. -/
theorem worker_timeout_rejects_and_releases_witness :
    (onTimeout c6State 0).settles
        = c6State.settles ++ [(0, SettleOutcome.rejectedTimeout)]
    ∧ (onTimeout c6State 0).removals = c6State.removals ++ [0]
    ∧ 0 ∉ (onTimeout c6State 0).active
    ∧ (1 : Nat) ∈ (onTimeout c6State 0).startedOrder :=
  worker_timeout_rejects_and_releases c6State 0
    { subId := 0, completed := false, timerArmed := true }
    { subId := 1, timeout := 7 } []
    (by decide) (by decide) (by decide) (by decide) (by decide) (by decide) (by decide)

end FeTestGen
